import Mathlib

/-!
Verification of the XML-RPC value codec (`src/value.rs`) and error/fault
taxonomy (`src/error.rs`) of the `xml-rpc-rs` library.

The data model and every operation present in the two source files are
embedded shallowly.  Code of the repository that the sources reference but
that is not part of the sample (the `utils` module with `escape_xml` and
`format_datetime`, and the parser described in the specification) is
modelled from the specification; each such definition says so in its doc
comment.  External crates (`hyper`, `xml`, `iso8601`, `base64`, the Rust
standard library's float formatting) are likewise modelled: opaque payloads
become small structures, and the float-to-text conversion is an explicit
function parameter wherever it matters.
-/

/-- Model of `f64`.  Finite doubles are represented by their rational value
(which identifies `+0.0` and `-0.0`, as IEEE `==` does); infinities and NaN
are separate constructors.  No claim performs float arithmetic, so this
carrier is enough to express IEEE equality and NaN-freeness. -/
inductive F64
  | nan
  | inf (neg : Bool)
  | finite (q : ℚ)
deriving DecidableEq, Repr

/-- IEEE 754 `==` on the `F64` model: NaN compares unequal to everything,
including itself.  This is the comparison Rust's derived `PartialEq` uses
for the `Double` payload. -/
def F64.ieeeEq : F64 → F64 → Bool
  | .nan, _ => false
  | _, .nan => false
  | .inf a, .inf b => a == b
  | .finite a, .finite b => a == b
  | _, _ => false

/-- Does the model double denote NaN? -/
def F64.isNan : F64 → Bool
  | .nan => true
  | _ => false

/-- Model of `iso8601::DateTime`, abstracted to the ISO 8601 text that
`utils::format_datetime` renders it to.  The crate's structural equality
becomes equality of that text. -/
structure DateTime where
  iso : String
deriving DecidableEq, Repr

/-- Model of `std::io::Error` (external), abstracted to its display text. -/
structure IoError where
  msg : String
deriving DecidableEq, Repr

/-- Model of `hyper::Error` (external): its `Io` variant wraps an I/O error,
every other variant is abstracted to its display text. -/
inductive HyperError
  | Io (e : IoError)
  | Other (msg : String)
deriving DecidableEq, Repr

/-- Model of `xml::reader::Error` (external), abstracted to its display
text.  `From<io::Error>` for it wraps the I/O error's text. -/
structure XmlError where
  msg : String
deriving DecidableEq, Repr

/-- Model of `xml::common::TextPosition` (external): a row/column pair. -/
structure TextPosition where
  row : Nat
  column : Nat
deriving DecidableEq, Repr

/-- The possible XML-RPC values (`Value` in `src/value.rs`).  `Struct`
carries the `BTreeMap<String, Value>` as its key-sorted association list
(the map's iteration order); `Base64` carries the `Vec<u8>` as a list of
bytes. -/
inductive Value
  | Int (i : Int)
  | Bool (b : Bool)
  | String (s : String)
  | Double (d : F64)
  | DateTime (dt : DateTime)
  | Base64 (data : List (Fin 256))
  | Struct (map : List (String × Value))
  | Array (a : List Value)

mutual

/-- The equality test generated by `#[derive(PartialEq)]` on `Value`:
structural equality everywhere except the `Double` payload, which is
compared with IEEE `==`. -/
def Value.eqPartial : Value → Value → Bool
  | .Int a, .Int b => a == b
  | .Bool a, .Bool b => a == b
  | .String a, .String b => a == b
  | .Double a, .Double b => F64.ieeeEq a b
  | .DateTime a, .DateTime b => a == b
  | .Base64 a, .Base64 b => a == b
  | .Struct a, .Struct b => eqPartialMembers a b
  | .Array a, .Array b => eqPartialList a b
  | _, _ => false

/-- Derived `PartialEq` on the member list of a `Struct`. -/
def eqPartialMembers : List (String × Value) → List (String × Value) → Bool
  | [], [] => true
  | (k1, v1) :: r1, (k2, v2) :: r2 =>
    k1 == k2 && Value.eqPartial v1 v2 && eqPartialMembers r1 r2
  | _, _ => false

/-- Derived `PartialEq` on a list of values. -/
def eqPartialList : List Value → List Value → Bool
  | [], [] => true
  | v1 :: r1, v2 :: r2 => Value.eqPartial v1 v2 && eqPartialList r1 r2
  | _, _ => false

end

mutual

/-- Does the value tree contain no NaN double anywhere? -/
def Value.nanFree : Value → Bool
  | .Double d => !d.isNan
  | .Struct m => nanFreeMembers m
  | .Array xs => nanFreeList xs
  | _ => true

/-- NaN-freeness of a struct member list. -/
def nanFreeMembers : List (String × Value) → Bool
  | [] => true
  | (_, v) :: r => v.nanFree && nanFreeMembers r

/-- NaN-freeness of a value list. -/
def nanFreeList : List Value → Bool
  | [] => true
  | v :: r => v.nanFree && nanFreeList r

end

/-- Modelled from the spec: the replacement `utils::escape_xml` applies to
one character.  §4.2 requires `&` → `&amp;` and `<` → `&lt;`; the unit
tests in `src/value.rs` pin down that every other character (`>`
included) passes through unchanged. -/
def escapeChar (c : Char) : String :=
  if c = '&' then "&amp;" else if c = '<' then "&lt;" else String.singleton c

/-- Modelled from the spec: `utils::escape_xml` (the `utils` module is not
part of the source sample).  Escapes `&` and `<` in a string, leaving all
other characters unaltered, as §4.2 and the serializer unit tests state. -/
def escape_xml (s : String) : String :=
  String.join (s.data.map escapeChar)

/-- Modelled from the spec: `utils::format_datetime` renders a timestamp as
ISO 8601 text.  With `DateTime` abstracted to that text, the renderer is
the projection. -/
def format_datetime (dt : DateTime) : String :=
  dt.iso

/-- One character of the standard base64 alphabet (`A-Z`, `a-z`, `0-9`,
`+`, `/`), as used by the external `base64::encode`. -/
def b64Char (n : Nat) : Char :=
  if n < 26 then Char.ofNat ('A'.toNat + n)
  else if n < 52 then Char.ofNat ('a'.toNat + (n - 26))
  else if n < 62 then Char.ofNat ('0'.toNat + (n - 52))
  else if n = 62 then '+'
  else '/'

/-- Standard base64 with padding on byte lists: the external
`base64::encode` ("standard base64 with padding", spec §4.2). -/
def b64encodeL : List (Fin 256) → List Char
  | [] => []
  | [a] => [b64Char (a.val / 4), b64Char (a.val % 4 * 16), '=', '=']
  | [a, b] => [b64Char (a.val / 4), b64Char (a.val % 4 * 16 + b.val / 16),
               b64Char (b.val % 16 * 4), '=']
  | a :: b :: c :: rest =>
    b64Char (a.val / 4) :: b64Char (a.val % 4 * 16 + b.val / 16) ::
    b64Char (b.val % 16 * 4 + c.val / 64) :: b64Char (c.val % 64) ::
    b64encodeL rest

/-- `base64::encode` producing a string. -/
def encode (data : List (Fin 256)) : String :=
  ⟨b64encodeL data⟩

/-- Decimal digits of a natural number, most significant first.  The fuel
argument makes the recursion structural; `fuel > n` is always enough. -/
def natReprAux : Nat → Nat → List Char
  | 0, _ => []
  | fuel + 1, n =>
    if n < 10 then [Nat.digitChar n]
    else natReprAux fuel (n / 10) ++ [Nat.digitChar (n % 10)]

/-- Decimal digits of a natural number. -/
def natRepr (n : Nat) : List Char :=
  natReprAux (n + 1) n

/-- Model of the Rust `Display` conversion for `i32` used by
`writeln!(fmt, "<i4>{}</i4>", i)`: decimal digits with a leading `-` for
negative numbers. -/
def decRepr (i : Int) : String :=
  if i < 0 then ⟨'-' :: natRepr i.natAbs⟩ else ⟨natRepr i.natAbs⟩

mutual

/-- `Value::format` from `src/value.rs`, collapsed over a byte sink that
never fails, so that the result is the exact text written.  `ftd` is the
platform's float-to-text conversion (Rust `Display` for `f64`, external to
the repository), passed as a parameter. -/
def Value.format (ftd : F64 → String) : Value → String
  | .Int i => "<value>\n" ++ "<i4>" ++ decRepr i ++ "</i4>\n" ++ "</value>\n"
  | .Bool b =>
    "<value>\n" ++ "<boolean>" ++ (if b then "1" else "0") ++ "</boolean>\n" ++ "</value>\n"
  | .String s => "<value>\n" ++ "<string>" ++ escape_xml s ++ "</string>\n" ++ "</value>\n"
  | .Double d => "<value>\n" ++ "<double>" ++ ftd d ++ "</double>\n" ++ "</value>\n"
  | .DateTime dt =>
    "<value>\n" ++ "<dateTime.iso8601>" ++ format_datetime dt ++ "</dateTime.iso8601>\n"
      ++ "</value>\n"
  | .Base64 data => "<value>\n" ++ "<base64>" ++ encode data ++ "</base64>\n" ++ "</value>\n"
  | .Struct map =>
    "<value>\n" ++ "<struct>\n" ++ formatMembers ftd map ++ "</struct>\n" ++ "</value>\n"
  | .Array a =>
    "<value>\n" ++ "<array>\n" ++ "<data>\n" ++ formatItems ftd a ++ "</data>\n"
      ++ "</array>\n" ++ "</value>\n"

/-- The member loop of the `Struct` arm of `Value::format`: one `<member>`
per field in the map's iteration order, `<name>` (escaped) first, then the
nested value. -/
def formatMembers (ftd : F64 → String) : List (String × Value) → String
  | [] => ""
  | (name, value) :: rest =>
    "<member>\n" ++ "<name>" ++ escape_xml name ++ "</name>\n" ++ Value.format ftd value
      ++ "</member>\n" ++ formatMembers ftd rest

/-- The element loop of the `Array` arm of `Value::format`. -/
def formatItems (ftd : F64 → String) : List Value → String
  | [] => ""
  | value :: rest => Value.format ftd value ++ formatItems ftd rest

end

example :
    Value.format (fun _ => "") (.Struct [("x&<x", .Bool true)]) =
      "<value>\n<struct>\n<member>\n<name>x&amp;&lt;x</name>\n<value>\n<boolean>1</boolean>\n</value>\n</member>\n</struct>\n</value>\n" := by
  decide

mutual

/-- `Value::format` over an abstract byte sink: `w st line` performs one
`writeln!` (the written text includes its newline), threading the sink
state and short-circuiting on the sink's error exactly as `try!` does. -/
def formatW {σ ε : Type} (ftd : F64 → String) (w : σ → String → Except ε σ) (st : σ) :
    Value → Except ε σ
  | v => do
    let st1 ← w st "<value>\n"
    let st2 ← formatWInner ftd w st1 v
    w st2 "</value>\n"

/-- The `match` between the two framing `writeln!`s of `Value::format`. -/
def formatWInner {σ ε : Type} (ftd : F64 → String) (w : σ → String → Except ε σ) (st : σ) :
    Value → Except ε σ
  | .Int i => w st ("<i4>" ++ decRepr i ++ "</i4>\n")
  | .Bool b => w st ("<boolean>" ++ (if b then "1" else "0") ++ "</boolean>\n")
  | .String s => w st ("<string>" ++ escape_xml s ++ "</string>\n")
  | .Double d => w st ("<double>" ++ ftd d ++ "</double>\n")
  | .DateTime dt =>
    w st ("<dateTime.iso8601>" ++ format_datetime dt ++ "</dateTime.iso8601>\n")
  | .Base64 data => w st ("<base64>" ++ encode data ++ "</base64>\n")
  | .Struct map => do
    let st1 ← w st "<struct>\n"
    let st2 ← formatWMembers ftd w st1 map
    w st2 "</struct>\n"
  | .Array a => do
    let st1 ← w st "<array>\n"
    let st2 ← w st1 "<data>\n"
    let st3 ← formatWItems ftd w st2 a
    let st4 ← w st3 "</data>\n"
    w st4 "</array>\n"

/-- The member loop of the `Struct` arm over the abstract sink. -/
def formatWMembers {σ ε : Type} (ftd : F64 → String) (w : σ → String → Except ε σ) (st : σ) :
    List (String × Value) → Except ε σ
  | [] => pure st
  | (name, value) :: rest => do
    let st1 ← w st "<member>\n"
    let st2 ← w st1 ("<name>" ++ escape_xml name ++ "</name>\n")
    let st3 ← formatW ftd w st2 value
    let st4 ← w st3 "</member>\n"
    formatWMembers ftd w st4 rest

/-- The element loop of the `Array` arm over the abstract sink. -/
def formatWItems {σ ε : Type} (ftd : F64 → String) (w : σ → String → Except ε σ) (st : σ) :
    List Value → Except ε σ
  | [] => pure st
  | value :: rest => do
    let st1 ← formatW ftd w st value
    formatWItems ftd w st1 rest

end

/-- Structural induction for `Value` that supplies induction hypotheses for
the values nested inside `Struct` member lists and `Array` element lists. -/
theorem Value.inductionOn {P : Value → Prop}
    (hInt : ∀ i, P (.Int i)) (hBool : ∀ b, P (.Bool b)) (hString : ∀ s, P (.String s))
    (hDouble : ∀ d, P (.Double d)) (hDT : ∀ dt, P (.DateTime dt))
    (hB64 : ∀ data, P (.Base64 data))
    (hStruct : ∀ m, (∀ kv ∈ m, P kv.2) → P (.Struct m))
    (hArray : ∀ xs, (∀ x ∈ xs, P x) → P (.Array xs)) : ∀ v, P v
  | .Int i => hInt i
  | .Bool b => hBool b
  | .String s => hString s
  | .Double d => hDouble d
  | .DateTime dt => hDT dt
  | .Base64 data => hB64 data
  | .Struct m =>
    hStruct m (fun kv _ => Value.inductionOn hInt hBool hString hDouble hDT hB64 hStruct hArray kv.2)
  | .Array xs =>
    hArray xs (fun x _ => Value.inductionOn hInt hBool hString hDouble hDT hB64 hStruct hArray x)
termination_by v => sizeOf v
decreasing_by
  · rename_i hkv
    have h1 := List.sizeOf_lt_of_mem hkv
    cases kv
    simp at h1 ⊢
    omega
  · rename_i hx
    have h1 := List.sizeOf_lt_of_mem hx
    simp
    omega

/-- Alias for the modelled `xml::reader::Error`, usable where the
constructor name `ParseError.XmlError` shadows the type name. -/
abbrev XmlReaderError := XmlError

/-- `ParseError` from `src/error.rs`. -/
inductive ParseError
  | XmlError (e : XmlReaderError)
  | InvalidValue (desc : String)
  | UnexpectedXml (expected : String) (position : TextPosition)
deriving DecidableEq, Repr

/-- Alias for the modelled `hyper::Error`, usable where the constructor
name `RequestError.HyperError` shadows the type name. -/
abbrev HyperCrateError := HyperError

/-- Alias for `ParseError`, usable where the constructor name
`RequestError.ParseError` shadows the type name. -/
abbrev ResponseParseError := ParseError

/-- `RequestError` from `src/error.rs`: either an HTTP communication error
or a response that could not be parsed. -/
inductive RequestError
  | HyperError (e : HyperCrateError)
  | ParseError (e : ResponseParseError)

/-- `impl From<HyperError> for RequestError`. -/
def RequestError.fromHyper (e : HyperCrateError) : RequestError :=
  RequestError.HyperError e

/-- `impl From<ParseError> for RequestError`. -/
def RequestError.fromParse (e : ResponseParseError) : RequestError :=
  RequestError.ParseError e

/-- `impl From<io::Error> for hyper::Error` (external crate): `hyper`
wraps the I/O error in its `Io` variant. -/
def HyperError.fromIo (e : IoError) : HyperError :=
  HyperError.Io e

/-- `impl From<io::Error> for RequestError`: routes through
`HyperError::from`. -/
def RequestError.fromIo (e : IoError) : RequestError :=
  RequestError.HyperError (HyperError.fromIo e)

/-- `impl From<XmlError> for ParseError`. -/
def ParseError.fromXml (e : XmlReaderError) : ParseError :=
  ParseError.XmlError e

/-- `impl From<io::Error> for XmlError` (external crate), abstracted: the
wrapped error's display text is preserved. -/
def XmlError.fromIo (e : IoError) : XmlError :=
  ⟨e.msg⟩

/-- `impl From<io::Error> for ParseError`: routes through
`XmlError::from`. -/
def ParseError.fromIo (e : IoError) : ParseError :=
  ParseError.XmlError (XmlError.fromIo e)

/-- Display text of the modelled `xml::reader::Error`. -/
def XmlError.display (e : XmlError) : String :=
  e.msg

/-- Modelled from the spec: the display of `xml::common::TextPosition`
(external crate), a row/column rendering. -/
def TextPosition.display (p : TextPosition) : String :=
  toString p.row ++ ":" ++ toString p.column

/-- `impl Display for ParseError` from `src/error.rs`. -/
def ParseError.display : ParseError → String
  | .XmlError e => "malformed XML: " ++ e.display
  | .InvalidValue desc => "invalid value: " ++ desc
  | .UnexpectedXml expected position => "expected " ++ expected ++ " at " ++ position.display

/-- Display text of the modelled `hyper::Error`. -/
def HyperError.display : HyperError → String
  | .Io e => e.msg
  | .Other msg => msg

/-- `impl Display for RequestError` from `src/error.rs`. -/
def RequestError.display : RequestError → String
  | .HyperError e => "HTTP error: " ++ e.display
  | .ParseError e => "parse error: " ++ e.display

/-- `Fault` from `src/error.rs`. -/
structure Fault where
  fault_code : Int
  fault_string : String
deriving DecidableEq, Repr

/-- `Fault::from_value` from `src/error.rs`: a `Struct` whose
`"faultCode"` entry is an `Int` and whose `"faultString"` entry is a
`String` yields a `Fault`; anything else yields `none`.  `BTreeMap::get`
is association-list lookup. -/
def Fault.from_value (value : Value) : Option Fault :=
  match value with
  | .Struct map =>
    match map.lookup "faultCode", map.lookup "faultString" with
    | some (.Int fault_code), some (.String fault_string) =>
      some { fault_code := fault_code, fault_string := fault_string }
    | _, _ => none
  | _ => none

example : Value.format (fun _ => "") (.Int 17) = "<value>\n<i4>17</i4>\n</value>\n" := by decide

example : Value.format (fun _ => "") (.Int (-42)) = "<value>\n<i4>-42</i4>\n</value>\n" := by decide

example : encode [⟨77, by omega⟩, ⟨97, by omega⟩, ⟨110, by omega⟩] = "TWFu" := by decide

example : encode [⟨77, by omega⟩] = "TQ==" := by decide

/-- C10: formatting an empty composite emits both open and close tags with
nothing between them, one element per line, no indentation: the empty
`Struct` yields exactly `<value>\n<struct>\n</struct>\n</value>\n` and the
empty `Array` yields exactly
`<value>\n<array>\n<data>\n</data>\n</array>\n</value>\n`. -/
theorem C10_empty_composites (ftd : F64 → String) :
    Value.format ftd (.Struct []) = "<value>\n<struct>\n</struct>\n</value>\n" ∧
    Value.format ftd (.Array []) = "<value>\n<array>\n<data>\n</data>\n</array>\n</value>\n" := by
  exact ⟨rfl, rfl⟩

/-- C3: `format` wraps every fragment in `<value>...</value>` and the child
is determined by the variant: `Int` emits `<i4>`, `Bool` emits `1`/`0`
(never the words `true`/`false`), `String` emits the escaped text,
`Double` defers to the platform float-to-text conversion `ftd`,
`DateTime` emits the ISO 8601 rendering, `Base64` emits standard padded
base64, `Struct` emits one `<member>` (name first, nested value second)
per field in mapping order, and `Array` emits the nested values in
sequence order inside `<array><data>`. -/
theorem C3_format_shape (ftd : F64 → String) (i : Int) (s : String) (d : F64)
    (dt : DateTime) (data : List (Fin 256)) (m : List (String × Value)) (xs : List Value) :
    Value.format ftd (.Int i) = "<value>\n<i4>" ++ decRepr i ++ "</i4>\n</value>\n" ∧
    Value.format ftd (.Bool true) = "<value>\n<boolean>1</boolean>\n</value>\n" ∧
    Value.format ftd (.Bool false) = "<value>\n<boolean>0</boolean>\n</value>\n" ∧
    Value.format ftd (.String s)
      = "<value>\n<string>" ++ escape_xml s ++ "</string>\n</value>\n" ∧
    Value.format ftd (.Double d) = "<value>\n<double>" ++ ftd d ++ "</double>\n</value>\n" ∧
    Value.format ftd (.DateTime dt)
      = "<value>\n<dateTime.iso8601>" ++ format_datetime dt ++ "</dateTime.iso8601>\n</value>\n" ∧
    Value.format ftd (.Base64 data)
      = "<value>\n<base64>" ++ encode data ++ "</base64>\n</value>\n" ∧
    Value.format ftd (.Struct m)
      = "<value>\n<struct>\n" ++ formatMembers ftd m ++ "</struct>\n</value>\n" ∧
    formatMembers ftd [] = "" ∧
    (∀ name v rest, formatMembers ftd ((name, v) :: rest)
      = "<member>\n<name>" ++ escape_xml name ++ "</name>\n"
          ++ Value.format ftd v ++ "</member>\n" ++ formatMembers ftd rest) ∧
    Value.format ftd (.Array xs)
      = "<value>\n<array>\n<data>\n" ++ formatItems ftd xs ++ "</data>\n</array>\n</value>\n" ∧
    formatItems ftd [] = "" ∧
    (∀ v rest, formatItems ftd (v :: rest) = Value.format ftd v ++ formatItems ftd rest) := by
  refine ⟨?_, rfl, rfl, ?_, ?_, ?_, ?_, ?_, rfl, ?_, ?_, rfl, ?_⟩
  · show "<value>\n" ++ "<i4>" ++ decRepr i ++ "</i4>\n" ++ "</value>\n" = _
    simp only [String.append_assoc]; exact rfl
  · show "<value>\n" ++ "<string>" ++ escape_xml s ++ "</string>\n" ++ "</value>\n" = _
    simp only [String.append_assoc]; exact rfl
  · show "<value>\n" ++ "<double>" ++ ftd d ++ "</double>\n" ++ "</value>\n" = _
    simp only [String.append_assoc]; exact rfl
  · show "<value>\n" ++ "<dateTime.iso8601>" ++ format_datetime dt
        ++ "</dateTime.iso8601>\n" ++ "</value>\n" = _
    simp only [String.append_assoc]; exact rfl
  · show "<value>\n" ++ "<base64>" ++ encode data ++ "</base64>\n" ++ "</value>\n" = _
    simp only [String.append_assoc]; exact rfl
  · show "<value>\n" ++ "<struct>\n" ++ formatMembers ftd m ++ "</struct>\n" ++ "</value>\n" = _
    simp only [String.append_assoc]; exact rfl
  · intro name v rest
    show "<member>\n" ++ "<name>" ++ escape_xml name ++ "</name>\n"
        ++ Value.format ftd v ++ "</member>\n" ++ formatMembers ftd rest = _
    simp only [String.append_assoc]; exact rfl
  · show "<value>\n" ++ "<array>\n" ++ "<data>\n" ++ formatItems ftd xs ++ "</data>\n"
        ++ "</array>\n" ++ "</value>\n" = _
    simp only [String.append_assoc]; exact rfl
  · intro v rest; exact rfl

/-- The characters written by `escape_xml`, descended to character lists:
a per-character replacement that touches only `&` and `<`. -/
theorem escape_xml_data (s : String) :
    (escape_xml s).data
      = s.data.flatMap fun c =>
          if c = '&' then "&amp;".data else if c = '<' then "&lt;".data else [c] := by
  unfold escape_xml
  rw [String.data_join, List.map_map, List.flatMap_def]
  have hc : ∀ c : Char, (escapeChar c).data
      = if c = '&' then "&amp;".data else if c = '<' then "&lt;".data else [c] := by
    intro c
    unfold escapeChar
    by_cases h1 : c = '&'
    · simp [h1]
    · by_cases h2 : c = '<' <;> simp [h1, h2]
  simp only [Function.comp_def, hc]

/-- C2: the serializer writes any string with every `&` replaced by
`&amp;`, every `<` replaced by `&lt;`, and every other character
(including `>`) left unaltered; the very same function `escape_xml` is
applied to free-form string values and struct member names. -/
theorem C2_escaping (ftd : F64 → String) (s name : String) (v : Value)
    (rest : List (String × Value)) :
    ((escape_xml s).data
      = s.data.flatMap fun c =>
          if c = '&' then "&amp;".data else if c = '<' then "&lt;".data else [c]) ∧
    Value.format ftd (.String s)
      = "<value>\n<string>" ++ escape_xml s ++ "</string>\n</value>\n" ∧
    formatMembers ftd ((name, v) :: rest)
      = "<member>\n<name>" ++ escape_xml name ++ "</name>\n"
          ++ Value.format ftd v ++ "</member>\n" ++ formatMembers ftd rest ∧
    escape_xml "<xml>&nbsp;string" = "&lt;xml>&amp;nbsp;string" ∧
    escape_xml ">a>" = ">a>" := by
  refine ⟨escape_xml_data s, ?_, ?_, by decide, by decide⟩
  · show "<value>\n" ++ "<string>" ++ escape_xml s ++ "</string>\n" ++ "</value>\n" = _
    simp only [String.append_assoc]; exact rfl
  · show "<member>\n" ++ "<name>" ++ escape_xml name ++ "</name>\n"
        ++ Value.format ftd v ++ "</member>\n" ++ formatMembers ftd rest = _
    simp only [String.append_assoc]; exact rfl

/-- C1 counterexample: the claim says `from_value` returns `None` whenever
the struct contains fields other than `faultCode` and `faultString`, but
the code only looks the two keys up and ignores extra fields: on a struct
with a third field `"aaa"` it still returns `Some`. -/
theorem C1_fault_extra_field_counterexample :
    Fault.from_value
        (.Struct [("aaa", .Int 0), ("faultCode", .Int 7), ("faultString", .String "bad")])
      = some { fault_code := 7, fault_string := "bad" } := by
  decide

/-- C1 amended: `from_value` returns `some f` exactly when the value is a
`Struct` whose `"faultCode"` entry is an `Int` equal to `f.fault_code` and
whose `"faultString"` entry is a `String` equal to `f.fault_string`;
fields beyond these two are ignored.  Any other shape (non-struct, missing
field, wrongly typed field) yields `none`, and the function is total, so
it never raises an error. -/
theorem C1_fault_extraction_amended (v : Value) (f : Fault) :
    Fault.from_value v = some f ↔
      ∃ map, v = Value.Struct map ∧
        map.lookup "faultCode" = some (.Int f.fault_code) ∧
        map.lookup "faultString" = some (.String f.fault_string) := by
  constructor
  · intro h
    unfold Fault.from_value at h
    split at h
    · rename_i map
      split at h
      · rename_i fault_code fault_string hc hs
        cases h
        exact ⟨map, rfl, hc, hs⟩
      · cases h
    · cases h
  · rintro ⟨map, rfl, hc, hs⟩
    have hdef : Fault.from_value (Value.Struct map)
        = match map.lookup "faultCode", map.lookup "faultString" with
          | some (.Int fault_code), some (.String fault_string) =>
            some { fault_code := fault_code, fault_string := fault_string }
          | _, _ => none := rfl
    rw [hdef, hc, hs]

/-- C6: converting a transport-level I/O error into a `RequestError`
always yields the `HyperError` (transport) kind, never the `ParseError`
kind. -/
theorem C6_io_error_is_transport (e : IoError) :
    RequestError.fromIo e = RequestError.HyperError (HyperError.fromIo e) ∧
    ∀ p, RequestError.fromIo e ≠ RequestError.ParseError p := by
  exact ⟨rfl, fun p h => RequestError.noConfusion h⟩

/-- C7: the error conversions are total (they are functions) and lossless
(the original error is kept whole inside the result), and the `Display`
rendering of each `ParseError` kind carries the wrapped cause's text
(`XmlError`, `InvalidValue`) or the document position together with the
expected-content description (`UnexpectedXml`). -/
theorem C7_error_conversions_lossless (x : XmlError) (p : ParseError) (d expected : String)
    (pos : TextPosition) :
    ParseError.fromXml x = ParseError.XmlError x ∧
    RequestError.fromParse p = RequestError.ParseError p ∧
    ParseError.display (.XmlError x) = "malformed XML: " ++ x.display ∧
    ParseError.display (.InvalidValue d) = "invalid value: " ++ d ∧
    ParseError.display (.UnexpectedXml expected pos)
      = "expected " ++ expected ++ " at " ++ pos.display := by
  exact ⟨rfl, rfl, rfl, rfl, rfl⟩

/-- Reflexivity of the derived `PartialEq` on every NaN-free value. -/
theorem eqPartial_refl_of_nanFree (v : Value) (h : v.nanFree = true) :
    v.eqPartial v = true := by
  induction v using Value.inductionOn with
  | hInt i => simp [Value.eqPartial]
  | hBool b => simp [Value.eqPartial]
  | hString s => simp [Value.eqPartial]
  | hDouble d =>
    cases d with
    | nan => simp [Value.nanFree, F64.isNan] at h
    | inf neg => simp [Value.eqPartial, F64.ieeeEq]
    | finite q => simp [Value.eqPartial, F64.ieeeEq]
  | hDT dt => simp [Value.eqPartial]
  | hB64 data => simp [Value.eqPartial]
  | hStruct m ih =>
    show eqPartialMembers m m = true
    have hm : nanFreeMembers m = true := h
    clear h
    induction m with
    | nil => rfl
    | cons kv rest ihr =>
      obtain ⟨k, v⟩ := kv
      simp only [nanFreeMembers, Bool.and_eq_true] at hm
      have h1 := ih (k, v) (by simp) hm.1
      have h2 := ihr (fun kv hkv hn => ih kv (List.mem_cons_of_mem _ hkv) hn) hm.2
      simp [eqPartialMembers, h1, h2]
  | hArray xs ih =>
    show eqPartialList xs xs = true
    have hm : nanFreeList xs = true := h
    clear h
    induction xs with
    | nil => rfl
    | cons x rest ihr =>
      simp only [nanFreeList, Bool.and_eq_true] at hm
      have h1 := ih x (by simp) hm.1
      have h2 := ihr (fun y hy hn => ih y (List.mem_cons_of_mem _ hy) hn) hm.2
      simp [eqPartialList, h1, h2]

/-- C9: derived `PartialEq` on `Value` is reflexive on every value whose
tree contains no NaN double, but a NaN double is unequal to itself — bare,
nested in an `Array`, or nested in a `Struct` — so `Value` equality is not
reflexive, hence not an equivalence relation, on all values. -/
theorem C9_partial_eq_nan (v : Value) (h : v.nanFree = true) :
    v.eqPartial v = true ∧
    Value.eqPartial (.Double .nan) (.Double .nan) = false ∧
    Value.eqPartial (.Array [.Double .nan]) (.Array [.Double .nan]) = false ∧
    Value.eqPartial (.Struct [("x", .Double .nan)]) (.Struct [("x", .Double .nan)]) = false ∧
    ¬ ∀ w : Value, w.eqPartial w = true := by
  refine ⟨eqPartial_refl_of_nanFree v h, by decide, by decide, by decide, fun hall => ?_⟩
  have hnan := hall (.Double .nan)
  simp [Value.eqPartial, F64.ieeeEq] at hnan

/-- Witness for C9 at a concrete NaN-free value. -/
theorem C9_partial_eq_nan_witness :
    Value.eqPartial (.Array [.Int 3, .String "a"]) (.Array [.Int 3, .String "a"]) = true :=
  (C9_partial_eq_nan (.Array [.Int 3, .String "a"]) (by decide)).1

/-- `BTreeMap::<String, Value>::insert` on the key-sorted association-list
representation of the map: place the new pair at its ordered position,
replacing an existing pair with the same key.  Rust compares `String`s by
their UTF-8 bytes, which orders them exactly like Lean's character-wise
`String` order, since UTF-8 byte order agrees with code-point order. -/
def btreeInsert (k : String) (v : Value) : List (String × Value) → List (String × Value)
  | [] => [(k, v)]
  | (k', v') :: rest =>
    if k < k' then (k, v) :: (k', v') :: rest
    else if k = k' then (k, v) :: rest
    else (k', v') :: btreeInsert k v rest

/-- A `BTreeMap` built by inserting the pairs of a list left to right,
starting from the empty map: the way callers construct a `Struct`'s map. -/
def btreeOfList (l : List (String × Value)) : List (String × Value) :=
  l.foldl (fun m kv => btreeInsert kv.1 kv.2 m) []

/-- The `BTreeMap` representation invariant: keys strictly sorted. -/
def keysSorted (l : List (String × Value)) : Prop :=
  List.Sorted (fun a b : String × Value => a.1 < b.1) l

/-- Everything in an inserted map is the new pair or was already there. -/
theorem mem_btreeInsert {x : String × Value} {k : String} {v : Value}
    {m : List (String × Value)} (h : x ∈ btreeInsert k v m) : x = (k, v) ∨ x ∈ m := by
  induction m with
  | nil => simpa [btreeInsert] using h
  | cons kv rest ih =>
    obtain ⟨k', v'⟩ := kv
    unfold btreeInsert at h
    split at h
    · rcases List.mem_cons.mp h with h1 | h1
      · exact Or.inl h1
      · exact Or.inr h1
    · split at h
      · rcases List.mem_cons.mp h with h1 | h1
        · exact Or.inl h1
        · exact Or.inr (List.mem_cons_of_mem _ h1)
      · rcases List.mem_cons.mp h with h1 | h1
        · exact Or.inr (h1 ▸ List.mem_cons_self _ _)
        · rcases ih h1 with h2 | h2
          · exact Or.inl h2
          · exact Or.inr (List.mem_cons_of_mem _ h2)

/-- `btreeInsert` preserves the sortedness invariant. -/
theorem keysSorted_btreeInsert {k : String} {v : Value} {m : List (String × Value)}
    (h : keysSorted m) : keysSorted (btreeInsert k v m) := by
  induction m with
  | nil => simp [btreeInsert, keysSorted]
  | cons kv rest ih =>
    obtain ⟨k', v'⟩ := kv
    rw [keysSorted, List.sorted_cons] at h
    obtain ⟨hall, hrest⟩ := h
    unfold btreeInsert
    split
    · rename_i hlt
      rw [keysSorted, List.sorted_cons]
      refine ⟨?_, ?_⟩
      · intro x hx
        rcases List.mem_cons.mp hx with h1 | h1
        · rw [h1]; exact hlt
        · exact lt_trans hlt (hall x h1)
      · rw [List.sorted_cons]; exact ⟨hall, hrest⟩
    · split
      · rename_i hnlt heq
        rw [keysSorted, List.sorted_cons]
        refine ⟨?_, hrest⟩
        intro x hx
        rw [heq]
        exact hall x hx
      · rename_i hnlt hne
        have hk : k' < k := by
          rcases lt_trichotomy k k' with h1 | h1 | h1
          · exact absurd h1 hnlt
          · exact absurd h1 hne
          · exact h1
        rw [keysSorted, List.sorted_cons]
        refine ⟨?_, ih hrest⟩
        intro x hx
        rcases mem_btreeInsert hx with h1 | h1
        · rw [h1]; exact hk
        · exact hall x h1

/-- Inserting a key not yet present permutes to consing the pair. -/
theorem btreeInsert_perm {k : String} {v : Value} {m : List (String × Value)}
    (h : k ∉ m.map Prod.fst) : (btreeInsert k v m).Perm ((k, v) :: m) := by
  induction m with
  | nil => exact List.Perm.refl _
  | cons kv rest ih =>
    obtain ⟨k', v'⟩ := kv
    simp only [List.map_cons, List.mem_cons, not_or] at h
    unfold btreeInsert
    split
    · exact List.Perm.refl _
    · split
      · rename_i heq
        exact absurd heq h.1
      · exact (List.Perm.cons (k', v') (ih h.2)).trans (List.Perm.swap (k, v) (k', v') rest)

/-- Building a map from a duplicate-free list yields a permutation of the
list: no pair is dropped or overwritten. -/
theorem btreeOfList_perm (l : List (String × Value)) (h : (l.map Prod.fst).Nodup) :
    (btreeOfList l).Perm l := by
  suffices haux : ∀ (l acc : List (String × Value)), ((acc ++ l).map Prod.fst).Nodup →
      (List.foldl (fun m kv => btreeInsert kv.1 kv.2 m) acc l).Perm (acc ++ l) by
    simpa using haux l [] (by simpa using h)
  intro l
  induction l with
  | nil => intro acc hacc; simp
  | cons kv rest ih =>
    intro acc hacc
    obtain ⟨k, v⟩ := kv
    have hmid : ((acc ++ (k, v) :: rest).map Prod.fst).Perm
        ((((k, v) :: acc) ++ rest).map Prod.fst) := by
      exact List.Perm.map Prod.fst List.perm_middle
    have hacc2 : ((((k, v) :: acc) ++ rest).map Prod.fst).Nodup := hmid.nodup_iff.mp hacc
    have hknotin : k ∉ acc.map Prod.fst := by
      have := hacc2
      simp only [List.cons_append, List.map_cons, List.nodup_cons, List.map_append,
        List.mem_append, not_or] at this
      exact this.1.1
    have hins : (btreeInsert k v acc).Perm ((k, v) :: acc) := btreeInsert_perm hknotin
    have hinskeys : ((btreeInsert k v acc ++ rest).map Prod.fst).Perm
        ((((k, v) :: acc) ++ rest).map Prod.fst) :=
      List.Perm.map Prod.fst (hins.append_right rest)
    have hnd3 : ((btreeInsert k v acc ++ rest).map Prod.fst).Nodup :=
      hinskeys.nodup_iff.mpr hacc2
    have hfold := ih (btreeInsert k v acc) hnd3
    refine hfold.trans ?_
    refine (hins.append_right rest).trans ?_
    exact (List.perm_middle).symm

/-- The built map always satisfies the sortedness invariant. -/
theorem keysSorted_btreeOfList (l : List (String × Value)) : keysSorted (btreeOfList l) := by
  suffices haux : ∀ (l acc : List (String × Value)), keysSorted acc →
      keysSorted (List.foldl (fun m kv => btreeInsert kv.1 kv.2 m) acc l) by
    exact haux l [] (by simp [keysSorted])
  intro l
  induction l with
  | nil => intro acc hacc; exact hacc
  | cons kv rest ih => intro acc hacc; exact ih _ (keysSorted_btreeInsert hacc)

/-- Maps built from permutations of the same duplicate-free pair list are
identical lists. -/
theorem btreeOfList_eq_of_perm {l1 l2 : List (String × Value)} (hperm : l1.Perm l2)
    (hnd : (l1.map Prod.fst).Nodup) : btreeOfList l1 = btreeOfList l2 := by
  have hnd2 : (l2.map Prod.fst).Nodup := (hperm.map Prod.fst).nodup_iff.mp hnd
  have h1 := btreeOfList_perm l1 hnd
  have h2 := btreeOfList_perm l2 hnd2
  have hp : (btreeOfList l1).Perm (btreeOfList l2) := h1.trans (hperm.trans h2.symm)
  haveI : IsAntisymm (String × Value) (fun a b => a.1 < b.1) :=
    ⟨fun a b hab hba => absurd hba (lt_asymm hab)⟩
  exact List.eq_of_perm_of_sorted hp (keysSorted_btreeOfList l1) (keysSorted_btreeOfList l2)

/-- C4: two `Struct`s holding equal field-name-to-value mappings — built
by inserting the same duplicate-free set of fields in any two orders —
format to byte-identical output, because `BTreeMap` iterates (and hence
the serializer emits) members in sorted key order, not insertion order. -/
theorem C4_struct_determinism (ftd : F64 → String) (l1 l2 : List (String × Value))
    (hperm : l1.Perm l2) (hnd : (l1.map Prod.fst).Nodup) :
    Value.format ftd (.Struct (btreeOfList l1)) = Value.format ftd (.Struct (btreeOfList l2)) := by
  rw [btreeOfList_eq_of_perm hperm hnd]

/-- Witness for C4: inserting the same two fields in the two possible
orders formats identically. -/
theorem C4_struct_determinism_witness :
    Value.format (fun _ => "") (.Struct (btreeOfList [("b", .Int 1), ("a", .Bool true)]))
      = Value.format (fun _ => "") (.Struct (btreeOfList [("a", .Bool true), ("b", .Int 1)])) :=
  C4_struct_determinism (fun _ => "") _ _
    (List.Perm.swap ("a", Value.Bool true) ("b", Value.Int 1) []) (by decide)

/-- Reduction of `Except` bind on a success, for rewriting the
serializer's `try!` chains. -/
theorem except_ok_bind {ε α β : Type} (a : α) (f : α → Except ε β) :
    (Except.ok a >>= f : Except ε β) = f a := rfl

/-- `pure` on `Except` is `ok`. -/
theorem except_pure_ok {ε α : Type} (a : α) : (pure a : Except ε α) = Except.ok a := rfl

/-- Over the sink that appends to a string and never fails, the effectful
serializer computes exactly the pure `Value.format` text. -/
theorem formatW_append_eq_format (ftd : F64 → String) (v : Value) : ∀ st : String,
    formatW ftd (fun s t => (Except.ok (s ++ t) : Except Unit String)) st v
      = .ok (st ++ Value.format ftd v) := by
  induction v using Value.inductionOn with
  | hInt i =>
    intro st
    simp only [formatW, formatWInner, Value.format, except_ok_bind, String.append_assoc]
  | hBool b =>
    intro st
    simp only [formatW, formatWInner, Value.format, except_ok_bind, String.append_assoc]
  | hString s =>
    intro st
    simp only [formatW, formatWInner, Value.format, except_ok_bind, String.append_assoc]
  | hDouble d =>
    intro st
    simp only [formatW, formatWInner, Value.format, except_ok_bind, String.append_assoc]
  | hDT dt =>
    intro st
    simp only [formatW, formatWInner, Value.format, except_ok_bind, String.append_assoc]
  | hB64 data =>
    intro st
    simp only [formatW, formatWInner, Value.format, except_ok_bind, String.append_assoc]
  | hStruct m ih =>
    have hmem : ∀ m', (∀ kv ∈ m', ∀ st : String,
        formatW ftd (fun s t => (Except.ok (s ++ t) : Except Unit String)) st kv.2
          = .ok (st ++ Value.format ftd kv.2)) → ∀ st : String,
        formatWMembers ftd (fun s t => (Except.ok (s ++ t) : Except Unit String)) st m'
          = .ok (st ++ formatMembers ftd m') := by
      intro m'
      induction m' with
      | nil =>
        intro hm st
        simp only [formatWMembers, formatMembers, except_pure_ok, String.append_empty]
      | cons kv rest ihr =>
        intro hm st
        obtain ⟨k, v'⟩ := kv
        have h1 : ∀ st : String,
            formatW ftd (fun s t => (Except.ok (s ++ t) : Except Unit String)) st v'
              = .ok (st ++ Value.format ftd v') := hm (k, v') (List.mem_cons_self _ _)
        have h2 := ihr fun kv hkv => hm kv (List.mem_cons_of_mem _ hkv)
        simp only [formatWMembers, formatMembers, except_ok_bind, h1, h2,
          String.append_assoc]
    intro st
    simp only [formatW, formatWInner, Value.format, except_ok_bind, hmem m ih,
      String.append_assoc]
  | hArray xs ih =>
    have hmem : ∀ xs', (∀ x ∈ xs', ∀ st : String,
        formatW ftd (fun s t => (Except.ok (s ++ t) : Except Unit String)) st x
          = .ok (st ++ Value.format ftd x)) → ∀ st : String,
        formatWItems ftd (fun s t => (Except.ok (s ++ t) : Except Unit String)) st xs'
          = .ok (st ++ formatItems ftd xs') := by
      intro xs'
      induction xs' with
      | nil =>
        intro hm st
        simp only [formatWItems, formatItems, except_pure_ok, String.append_empty]
      | cons x rest ihr =>
        intro hm st
        have h1 := hm x (List.mem_cons_self _ _)
        have h2 := ihr fun y hy => hm y (List.mem_cons_of_mem _ hy)
        simp only [formatWItems, formatItems, except_ok_bind, h1, h2, String.append_assoc]
    intro st
    simp only [formatW, formatWInner, Value.format, except_ok_bind, hmem xs ih,
      String.append_assoc]

/-- C8: over any byte sink whose write operations never fail, `format`
returns `Ok`: serialization's only failure mode is propagating the sink's
own error, and no semantic error is ever produced. -/
theorem C8_format_ok_on_infallible_sink {σ ε : Type} (ftd : F64 → String)
    (w : σ → String → Except ε σ) (hw : ∀ st s, ∃ st', w st s = .ok st') (v : Value) :
    ∀ st, ∃ st', formatW ftd w st v = .ok st' := by
  induction v using Value.inductionOn with
  | hInt i =>
    intro st
    obtain ⟨st1, h1⟩ := hw st "<value>\n"
    obtain ⟨st2, h2⟩ := hw st1 ("<i4>" ++ decRepr i ++ "</i4>\n")
    obtain ⟨st3, h3⟩ := hw st2 "</value>\n"
    exact ⟨st3, by simp [formatW, formatWInner, except_ok_bind, h1, h2, h3]⟩
  | hBool b =>
    intro st
    obtain ⟨st1, h1⟩ := hw st "<value>\n"
    obtain ⟨st2, h2⟩ := hw st1 ("<boolean>" ++ (if b then "1" else "0") ++ "</boolean>\n")
    obtain ⟨st3, h3⟩ := hw st2 "</value>\n"
    exact ⟨st3, by simp [formatW, formatWInner, except_ok_bind, h1, h2, h3]⟩
  | hString s =>
    intro st
    obtain ⟨st1, h1⟩ := hw st "<value>\n"
    obtain ⟨st2, h2⟩ := hw st1 ("<string>" ++ escape_xml s ++ "</string>\n")
    obtain ⟨st3, h3⟩ := hw st2 "</value>\n"
    exact ⟨st3, by simp [formatW, formatWInner, except_ok_bind, h1, h2, h3]⟩
  | hDouble d =>
    intro st
    obtain ⟨st1, h1⟩ := hw st "<value>\n"
    obtain ⟨st2, h2⟩ := hw st1 ("<double>" ++ ftd d ++ "</double>\n")
    obtain ⟨st3, h3⟩ := hw st2 "</value>\n"
    exact ⟨st3, by simp [formatW, formatWInner, except_ok_bind, h1, h2, h3]⟩
  | hDT dt =>
    intro st
    obtain ⟨st1, h1⟩ := hw st "<value>\n"
    obtain ⟨st2, h2⟩ :=
      hw st1 ("<dateTime.iso8601>" ++ format_datetime dt ++ "</dateTime.iso8601>\n")
    obtain ⟨st3, h3⟩ := hw st2 "</value>\n"
    exact ⟨st3, by simp [formatW, formatWInner, except_ok_bind, h1, h2, h3]⟩
  | hB64 data =>
    intro st
    obtain ⟨st1, h1⟩ := hw st "<value>\n"
    obtain ⟨st2, h2⟩ := hw st1 ("<base64>" ++ encode data ++ "</base64>\n")
    obtain ⟨st3, h3⟩ := hw st2 "</value>\n"
    exact ⟨st3, by simp [formatW, formatWInner, except_ok_bind, h1, h2, h3]⟩
  | hStruct m ih =>
    have hmem : ∀ m', (∀ kv ∈ m', ∀ st, ∃ st', formatW ftd w st kv.2 = .ok st') →
        ∀ st, ∃ st', formatWMembers ftd w st m' = .ok st' := by
      intro m'
      induction m' with
      | nil => intro hm st; exact ⟨st, by simp [formatWMembers, except_pure_ok]⟩
      | cons kv rest ihr =>
        intro hm st
        obtain ⟨k, v'⟩ := kv
        obtain ⟨st1, h1⟩ := hw st "<member>\n"
        obtain ⟨st2, h2⟩ := hw st1 ("<name>" ++ escape_xml k ++ "</name>\n")
        obtain ⟨st3, h3⟩ := hm (k, v') (List.mem_cons_self _ _) st2
        have h3' : formatW ftd w st2 v' = .ok st3 := h3
        obtain ⟨st4, h4⟩ := hw st3 "</member>\n"
        obtain ⟨st5, h5⟩ := ihr (fun kv hkv => hm kv (List.mem_cons_of_mem _ hkv)) st4
        exact ⟨st5, by simp [formatWMembers, except_ok_bind, h1, h2, h3', h4, h5]⟩
    intro st
    obtain ⟨st1, h1⟩ := hw st "<value>\n"
    obtain ⟨st2, h2⟩ := hw st1 "<struct>\n"
    obtain ⟨st3, h3⟩ := hmem m ih st2
    obtain ⟨st4, h4⟩ := hw st3 "</struct>\n"
    obtain ⟨st5, h5⟩ := hw st4 "</value>\n"
    exact ⟨st5, by simp [formatW, formatWInner, except_ok_bind, h1, h2, h3, h4, h5]⟩
  | hArray xs ih =>
    have hmem : ∀ xs', (∀ x ∈ xs', ∀ st, ∃ st', formatW ftd w st x = .ok st') →
        ∀ st, ∃ st', formatWItems ftd w st xs' = .ok st' := by
      intro xs'
      induction xs' with
      | nil => intro hm st; exact ⟨st, by simp [formatWItems, except_pure_ok]⟩
      | cons x rest ihr =>
        intro hm st
        obtain ⟨st1, h1⟩ := hm x (List.mem_cons_self _ _) st
        obtain ⟨st2, h2⟩ := ihr (fun y hy => hm y (List.mem_cons_of_mem _ hy)) st1
        exact ⟨st2, by simp [formatWItems, except_ok_bind, h1, h2]⟩
    intro st
    obtain ⟨st1, h1⟩ := hw st "<value>\n"
    obtain ⟨st2, h2⟩ := hw st1 "<array>\n"
    obtain ⟨st3, h3⟩ := hw st2 "<data>\n"
    obtain ⟨st4, h4⟩ := hmem xs ih st3
    obtain ⟨st5, h5⟩ := hw st4 "</data>\n"
    obtain ⟨st6, h6⟩ := hw st5 "</array>\n"
    obtain ⟨st7, h7⟩ := hw st6 "</value>\n"
    exact ⟨st7, by simp [formatW, formatWInner, except_ok_bind, h1, h2, h3, h4, h5, h6, h7]⟩

/-- Witness for C8: the counting sink never fails, so serializing a small
struct through it succeeds. -/
theorem C8_format_ok_on_infallible_sink_witness :
    ∃ n : Nat, formatW (fun _ => "") (fun (st : Nat) (s : String) =>
        (Except.ok (st + s.length) : Except Unit Nat)) 0
      (.Struct [("k", .Array [.Int 5])]) = .ok n :=
  C8_format_ok_on_infallible_sink (fun _ => "") _ (fun st s => ⟨st + s.length, rfl⟩) _ 0

/-- Modelled from the spec: entity decoding done by the external XML
tokenizer (`xml::reader`) on text content, restricted to the two entities
the serializer emits: `&amp;` and `&lt;`.  Any other text passes through
unchanged. -/
def unescapeL : List Char → List Char
  | [] => []
  | '&' :: 'a' :: 'm' :: 'p' :: ';' :: rest => '&' :: unescapeL rest
  | '&' :: 'l' :: 't' :: ';' :: rest => '<' :: unescapeL rest
  | c :: rest => c :: unescapeL rest

/-- The catch-all equation of `unescapeL`: any character other than `&`
passes through. -/
theorem unescapeL_cons_ne {c : Char} (rest : List Char) (h : c ≠ '&') :
    unescapeL (c :: rest) = c :: unescapeL rest := by
  simp [unescapeL, h]

/-- Text without an ampersand decodes to itself. -/
theorem unescapeL_eq_self {l : List Char} (h : '&' ∉ l) : unescapeL l = l := by
  induction l with
  | nil => rfl
  | cons c rest ih =>
    simp only [List.mem_cons, not_or] at h
    rw [unescapeL_cons_ne rest (by exact fun hc => h.1 hc.symm), ih h.2]

/-- Decoding inverts the serializer's escaping, character-list level. -/
theorem unescapeL_escape (l : List Char) :
    unescapeL (l.flatMap fun c =>
      if c = '&' then "&amp;".data else if c = '<' then "&lt;".data else [c]) = l := by
  induction l with
  | nil => rfl
  | cons c rest ih =>
    rw [List.flatMap_cons]
    by_cases h1 : c = '&'
    · subst h1
      simp only [if_pos rfl]
      show unescapeL ('&' :: 'a' :: 'm' :: 'p' :: ';' :: _) = _
      show '&' :: unescapeL _ = _
      exact congrArg _ ih
    · by_cases h2 : c = '<'
      · subst h2
        simp only [if_neg h1, if_pos rfl]
        show unescapeL ('&' :: 'l' :: 't' :: ';' :: _) = _
        show '<' :: unescapeL _ = _
        exact congrArg _ ih
      · simp only [if_neg h1, if_neg h2, List.singleton_append]
        rw [unescapeL_cons_ne _ h1, ih]

/-- Decoding inverts `escape_xml`. -/
theorem unescapeL_escape_xml (s : String) : unescapeL (escape_xml s).data = s.data := by
  rw [escape_xml_data]
  exact unescapeL_escape s.data

/-- Escaped text never contains a literal `<`. -/
theorem escape_xml_no_lt (s : String) : '<' ∉ (escape_xml s).data := by
  rw [escape_xml_data]
  intro hmem
  rw [List.mem_flatMap] at hmem
  obtain ⟨c, _, hc⟩ := hmem
  by_cases h1 : c = '&'
  · simp [h1] at hc
  · by_cases h2 : c = '<'
    · simp [h1, h2] at hc
    · simp [h1, h2] at hc
      exact h2 hc.symm

/-- Numeric value of a decimal digit character. -/
def digitVal (c : Char) : Nat :=
  c.toNat - '0'.toNat

/-- Model of `str::parse::<i32>`'s digit loop: accumulate decimal digits,
failing on any non-digit. -/
def parseDigitsAux : Nat → List Char → Option Nat
  | acc, [] => some acc
  | acc, c :: cs => if c.isDigit then parseDigitsAux (acc * 10 + digitVal c) cs else none

/-- Digit-string parsing: a non-empty all-digit string's value. -/
def parseDigits (cs : List Char) : Option Nat :=
  if cs.isEmpty then none else parseDigitsAux 0 cs

/-- Modelled from the spec: `str::parse::<i32>` (Rust standard library) as
used by the parser of §4.3 on `<i4>`/`<int>` text: an optional sign
followed by decimal digits.  The embedding carries mathematical integers,
so the `i32` range check is omitted; the serializer only emits in-range
values. -/
def parseIntText (s : String) : Option Int :=
  match s.data with
  | [] => none
  | c :: cs =>
    if c = '-' then (parseDigits cs).map fun n => -(n : Int)
    else if c = '+' then (parseDigits cs).map fun n => (n : Int)
    else (parseDigits (c :: cs)).map fun n => (n : Int)

/-- A digit character below ten satisfies the digit test. -/
theorem digitChar_isDigit {n : Nat} (h : n < 10) : (Nat.digitChar n).isDigit = true := by
  interval_cases n <;> rfl

/-- Every character produced by the decimal renderer is a digit. -/
theorem natReprAux_digits (fuel n : Nat) : ∀ c ∈ natReprAux fuel n, c.isDigit = true := by
  induction fuel generalizing n with
  | zero => intro c hc; simp [natReprAux] at hc
  | succ fuel ih =>
    intro c hc
    rw [natReprAux] at hc
    split at hc
    · rename_i h10
      rw [List.mem_singleton] at hc
      subst hc
      exact digitChar_isDigit h10
    · rw [List.mem_append, List.mem_singleton] at hc
      rcases hc with hc | hc
      · exact ih _ c hc
      · subst hc
        exact digitChar_isDigit (Nat.mod_lt _ (by omega))

/-- The decimal renderer is never empty when it has fuel. -/
theorem natReprAux_ne_nil (fuel n : Nat) (h : 0 < fuel) : natReprAux fuel n ≠ [] := by
  cases fuel with
  | zero => omega
  | succ fuel =>
    rw [natReprAux]
    split
    · exact List.cons_ne_nil _ _
    · exact fun hc => by simp at hc

/-- `digitVal` inverts `Nat.digitChar` on decimal digits. -/
theorem digitVal_digitChar (n : Nat) (h : n < 10) : digitVal (Nat.digitChar n) = n := by
  interval_cases n <;> rfl

/-- The digit loop over an all-digit string folds up the value. -/
theorem parseDigitsAux_all_digits (ds : List Char) : ∀ acc, (∀ c ∈ ds, c.isDigit = true) →
    parseDigitsAux acc ds = some (ds.foldl (fun a c => a * 10 + digitVal c) acc) := by
  induction ds with
  | nil => intro acc _; rfl
  | cons c cs ih =>
    intro acc hall
    rw [parseDigitsAux, if_pos (hall c (List.mem_cons_self _ _)), List.foldl_cons]
    exact ih _ fun d hd => hall d (List.mem_cons_of_mem _ hd)

/-- Folding the digit accumulator over the decimal rendering of `n`
starting from `acc` multiplies `acc` past `n`'s digits and adds `n`. -/
theorem foldl_natReprAux (fuel : Nat) : ∀ n acc, n < fuel →
    (natReprAux fuel n).foldl (fun a c => a * 10 + digitVal c) acc
      = acc * 10 ^ (natReprAux fuel n).length + n := by
  induction fuel with
  | zero => intro n acc h; omega
  | succ fuel ih =>
    intro n acc h
    rw [natReprAux]
    split
    · rename_i h10
      simp [digitVal_digitChar n h10]
    · rename_i h10
      rw [List.foldl_append, ih (n / 10) acc (by omega)]
      simp only [List.foldl_cons, List.foldl_nil, List.length_append, List.length_singleton]
      rw [pow_succ, ← mul_assoc]
      have hd : digitVal (Nat.digitChar (n % 10)) = n % 10 :=
        digitVal_digitChar _ (Nat.mod_lt _ (by omega))
      rw [hd]
      set a := acc * 10 ^ (natReprAux fuel (n / 10)).length with ha
      omega

/-- Parsing the decimal rendering of a natural number recovers it. -/
theorem parseDigits_natRepr (n : Nat) : parseDigits (natRepr n) = some n := by
  rw [parseDigits, if_neg (by simp [List.isEmpty_eq_true, natReprAux_ne_nil (n + 1) n (by omega), natRepr])]
  rw [natRepr, parseDigitsAux_all_digits _ 0 (natReprAux_digits _ _),
    foldl_natReprAux (n + 1) n 0 (by omega)]
  simp

/-- A digit character is not a sign character. -/
theorem isDigit_ne_sign {c : Char} (h : c.isDigit = true) : c ≠ '-' ∧ c ≠ '+' := by
  constructor <;> intro heq <;> subst heq <;> simp [Char.isDigit] at h

/-- The non-empty-text equation of `parseIntText`. -/
theorem parseIntText_cons (c : Char) (cs : List Char) :
    parseIntText ⟨c :: cs⟩
      = if c = '-' then (parseDigits cs).map fun n => -(n : Int)
        else if c = '+' then (parseDigits cs).map fun n => (n : Int)
        else (parseDigits (c :: cs)).map fun n => (n : Int) := rfl

/-- Parsing the serializer's integer text recovers the integer. -/
theorem parseIntText_decRepr (i : Int) : parseIntText (decRepr i) = some i := by
  by_cases hneg : i < 0
  · rw [decRepr, if_pos hneg]
    show parseIntText ⟨'-' :: natRepr i.natAbs⟩ = some i
    rw [parseIntText_cons]
    simp only [if_pos rfl]
    rw [parseDigits_natRepr]
    show some (-(i.natAbs : Int)) = some i
    congr 1
    omega
  · rw [decRepr, if_neg hneg]
    show parseIntText ⟨natRepr i.natAbs⟩ = some i
    have hne : natRepr i.natAbs ≠ [] :=
      natReprAux_ne_nil (i.natAbs + 1) i.natAbs (by omega)
    obtain ⟨c, cs, hcons⟩ := List.exists_cons_of_ne_nil hne
    rw [hcons, parseIntText_cons]
    have hdig : c.isDigit = true := by
      apply natReprAux_digits (i.natAbs + 1) i.natAbs
      rw [← natRepr, hcons]; exact List.mem_cons_self _ _
    obtain ⟨hm, hp⟩ := isDigit_ne_sign hdig
    rw [if_neg hm, if_neg hp, ← hcons, parseDigits_natRepr]
    show some ((i.natAbs : Int)) = some i
    congr 1
    omega

/-- Byte from an assembled value (always fed values below 256). -/
def mkByte (n : Nat) : Fin 256 :=
  ⟨n % 256, Nat.mod_lt _ (by omega)⟩

/-- Value of a standard base64 alphabet character, `none` outside the
alphabet. -/
def b64Val (c : Char) : Option Nat :=
  if 'A' ≤ c ∧ c ≤ 'Z' then some (c.toNat - 'A'.toNat)
  else if 'a' ≤ c ∧ c ≤ 'z' then some (c.toNat - 'a'.toNat + 26)
  else if '0' ≤ c ∧ c ≤ '9' then some (c.toNat - '0'.toNat + 52)
  else if c = '+' then some 62
  else if c = '/' then some 63
  else none

/-- Modelled from the spec: standard padded base64 decoding as performed
by the external `base64` crate when the parser of §4.3 handles a
`<base64>` tag.  Quartets of alphabet characters with `=` padding on the
final quartet. -/
def b64decodeL : List Char → Option (List (Fin 256))
  | [] => some []
  | c1 :: c2 :: c3 :: c4 :: rest =>
    match b64Val c1, b64Val c2 with
    | some v1, some v2 =>
      if c3 = '=' then
        if c4 = '=' then
          if rest = [] then some [mkByte (v1 * 4 + v2 / 16)] else none
        else none
      else
        match b64Val c3 with
        | some v3 =>
          if c4 = '=' then
            if rest = [] then
              some [mkByte (v1 * 4 + v2 / 16), mkByte (v2 % 16 * 16 + v3 / 4)]
            else none
          else
            match b64Val c4, b64decodeL rest with
            | some v4, some tail =>
              some (mkByte (v1 * 4 + v2 / 16) :: mkByte (v2 % 16 * 16 + v3 / 4) ::
                mkByte (v3 % 4 * 64 + v4) :: tail)
            | _, _ => none
        | none => none
    | _, _ => none
  | _ => none

/-- The base64 alphabet decodes back to its index. -/
theorem b64Val_b64Char : ∀ n, n < 64 → b64Val (b64Char n) = some n := by decide

/-- Alphabet characters are never the padding character. -/
theorem b64Char_ne_pad : ∀ n, n < 64 → b64Char n ≠ '=' := by decide

/-- Alphabet characters are plain text for the XML tokenizer. -/
theorem b64Char_tokSafe : ∀ n, n < 64 → b64Char n ≠ '<' ∧ b64Char n ≠ '&' := by decide

/-- Induction on byte lists in encoder-sized groups of three. -/
theorem chunk3Induction {P : List (Fin 256) → Prop} (h0 : P []) (h1 : ∀ a, P [a])
    (h2 : ∀ a b, P [a, b]) (h3 : ∀ a b c rest, P rest → P (a :: b :: c :: rest)) : ∀ l, P l
  | [] => h0
  | [a] => h1 a
  | [a, b] => h2 a b
  | a :: b :: c :: rest => h3 a b c rest (chunk3Induction h0 h1 h2 h3 rest)

/-- Standard base64 decoding inverts encoding on every byte list. -/
theorem b64decode_encode (l : List (Fin 256)) : b64decodeL (b64encodeL l) = some l := by
  induction l using chunk3Induction with
  | h0 => rfl
  | h1 a =>
    show b64decodeL [b64Char (a.val / 4), b64Char (a.val % 4 * 16), '=', '='] = some [a]
    have ha := a.isLt
    have hv1 := b64Val_b64Char (a.val / 4) (by omega)
    have hv2 := b64Val_b64Char (a.val % 4 * 16) (by omega)
    rw [b64decodeL]
    simp only [hv1, hv2, if_pos rfl]
    simp only [if_true, reduceIte]
    congr 1
    congr 1
    apply Fin.ext
    show (a.val / 4 * 4 + a.val % 4 * 16 / 16) % 256 = a.val
    omega
  | h2 a b =>
    show b64decodeL [b64Char (a.val / 4), b64Char (a.val % 4 * 16 + b.val / 16),
        b64Char (b.val % 16 * 4), '='] = some [a, b]
    have ha := a.isLt
    have hb := b.isLt
    have hv1 := b64Val_b64Char (a.val / 4) (by omega)
    have hv2 := b64Val_b64Char (a.val % 4 * 16 + b.val / 16) (by omega)
    have hv3 := b64Val_b64Char (b.val % 16 * 4) (by omega)
    have hne3 := b64Char_ne_pad (b.val % 16 * 4) (by omega)
    rw [b64decodeL]
    simp only [hv1, hv2, hv3, if_neg hne3, if_pos rfl, reduceIte]
    congr 1
    congr 1
    · apply Fin.ext
      show (a.val / 4 * 4 + (a.val % 4 * 16 + b.val / 16) / 16) % 256 = a.val
      omega
    congr 1
    apply Fin.ext
    show ((a.val % 4 * 16 + b.val / 16) % 16 * 16 + b.val % 16 * 4 / 4) % 256 = b.val
    omega
  | h3 a b c rest ih =>
    show b64decodeL (b64Char (a.val / 4) :: b64Char (a.val % 4 * 16 + b.val / 16) ::
        b64Char (b.val % 16 * 4 + c.val / 64) :: b64Char (c.val % 64) :: b64encodeL rest)
      = some (a :: b :: c :: rest)
    have ha := a.isLt
    have hb := b.isLt
    have hc := c.isLt
    have hv1 := b64Val_b64Char (a.val / 4) (by omega)
    have hv2 := b64Val_b64Char (a.val % 4 * 16 + b.val / 16) (by omega)
    have hv3 := b64Val_b64Char (b.val % 16 * 4 + c.val / 64) (by omega)
    have hv4 := b64Val_b64Char (c.val % 64) (by omega)
    have hne3 := b64Char_ne_pad (b.val % 16 * 4 + c.val / 64) (by omega)
    have hne4 := b64Char_ne_pad (c.val % 64) (by omega)
    rw [b64decodeL]
    simp only [hv1, hv2, hv3, hv4, if_neg hne3, if_neg hne4, ih]
    congr 1
    congr 1
    · apply Fin.ext
      show (a.val / 4 * 4 + (a.val % 4 * 16 + b.val / 16) / 16) % 256 = a.val
      omega
    congr 1
    · apply Fin.ext
      show ((a.val % 4 * 16 + b.val / 16) % 16 * 16 + (b.val % 16 * 4 + c.val / 64) / 4) % 256
        = b.val
      omega
    congr 1
    apply Fin.ext
    show ((b.val % 16 * 4 + c.val / 64) % 4 * 64 + c.val % 64) % 256 = c.val
    omega

/-- Every character in base64 output is plain text for the tokenizer. -/
theorem b64encodeL_tokSafe (l : List (Fin 256)) :
    ∀ c ∈ b64encodeL l, c ≠ '<' ∧ c ≠ '&' := by
  induction l using chunk3Induction with
  | h0 => intro c hc; simp [b64encodeL] at hc
  | h1 a =>
    intro ch hc
    have ha := a.isLt
    rw [b64encodeL] at hc
    simp only [List.mem_cons, List.not_mem_nil, or_false] at hc
    rcases hc with hc | hc | hc | hc <;> subst hc
    · exact b64Char_tokSafe _ (by omega)
    · exact b64Char_tokSafe _ (by omega)
    · exact (by decide)
    · exact (by decide)
  | h2 a b =>
    intro ch hc
    have ha := a.isLt
    have hb := b.isLt
    rw [b64encodeL] at hc
    simp only [List.mem_cons, List.not_mem_nil, or_false] at hc
    rcases hc with hc | hc | hc | hc <;> subst hc
    · exact b64Char_tokSafe _ (by omega)
    · exact b64Char_tokSafe _ (by omega)
    · exact b64Char_tokSafe _ (by omega)
    · exact (by decide)
  | h3 a b c rest ih =>
    intro ch hc
    have ha := a.isLt
    have hb := b.isLt
    have hcv := c.isLt
    rw [b64encodeL] at hc
    simp only [List.mem_cons] at hc
    rcases hc with hc | hc | hc | hc | hc
    · exact hc ▸ b64Char_tokSafe _ (by omega)
    · exact hc ▸ b64Char_tokSafe _ (by omega)
    · exact hc ▸ b64Char_tokSafe _ (by omega)
    · exact hc ▸ b64Char_tokSafe _ (by omega)
    · exact ih ch hc

/-- Base64 output is empty exactly for the empty byte list. -/
theorem b64encodeL_eq_nil_iff (l : List (Fin 256)) : b64encodeL l = [] ↔ l = [] := by
  induction l using chunk3Induction with
  | h0 => simp [b64encodeL]
  | h1 a => simp [b64encodeL]
  | h2 a b => simp [b64encodeL]
  | h3 a b c rest ih => simp [b64encodeL]

/-- Model of the XML parse events consumed by the parser of §4.3:
element start, element end, text content (already entity-decoded by the
tokenizer).  The serializer emits no attributes, so none are modelled. -/
inductive XmlEvent
  | startE (tag : String)
  | endE (tag : String)
  | charsE (s : String)
deriving DecidableEq, Repr

/-- Tokenizer state: accumulating text, just after `<`, or inside a tag
name. -/
inductive TokMode
  | text (acc : List Char)
  | tagOpen
  | tagName (isEnd : Bool) (acc : List Char)

/-- Modelled from the spec: the external XML tokenizer (`xml::reader`),
specialized to the markup the serializer emits — angle-bracket tags and
text content with entities.  Text events carry entity-decoded text, and
consecutive text is one event.  Position tracking is abstracted away. -/
def tokGo : TokMode → List Char → List XmlEvent
  | .text acc, [] => if acc.isEmpty then [] else [.charsE ⟨unescapeL acc.reverse⟩]
  | .text acc, c :: cs =>
    if c = '<' then
      (if acc.isEmpty then [] else [.charsE ⟨unescapeL acc.reverse⟩]) ++ tokGo .tagOpen cs
    else tokGo (.text (c :: acc)) cs
  | .tagOpen, [] => []
  | .tagOpen, c :: cs =>
    if c = '/' then tokGo (.tagName true []) cs else tokGo (.tagName false [c]) cs
  | .tagName _ _, [] => []
  | .tagName isEnd acc, c :: cs =>
    if c = '>' then
      (if isEnd then XmlEvent.endE ⟨acc.reverse⟩ else XmlEvent.startE ⟨acc.reverse⟩)
        :: tokGo (.text []) cs
    else tokGo (.tagName isEnd (c :: acc)) cs

/-- The tokenizer over a whole document. -/
def tokenizeL (l : List Char) : List XmlEvent :=
  tokGo (.text []) l

/-- One piece of serializer output: a tag or a run of raw text. -/
inductive Chunk
  | tagC (isEnd : Bool) (name : String)
  | textC (raw : List Char)

/-- The characters a chunk occupies on the wire. -/
def Chunk.flat : Chunk → List Char
  | .tagC isEnd n => (if isEnd then '<' :: '/' :: n.data else '<' :: n.data) ++ ['>']
  | .textC raw => raw

/-- The event the tokenizer produces for a chunk. -/
def Chunk.toEvent : Chunk → XmlEvent
  | .tagC isEnd n => if isEnd then .endE n else .startE n
  | .textC raw => .charsE ⟨unescapeL raw⟩

/-- A chunk list flattened to wire characters. -/
def flatChunks (l : List Chunk) : List Char :=
  (l.map Chunk.flat).flatten

/-- Well-formedness of one chunk: tag names carry no `>` (and an opening
tag is non-empty and does not begin with `/`); text runs are non-empty and
carry no `<`. -/
def Chunk.ok : Chunk → Prop
  | .tagC isEnd n => '>' ∉ n.data ∧ (isEnd = false → n.data ≠ [] ∧ n.data.head? ≠ some '/')
  | .textC raw => raw ≠ [] ∧ '<' ∉ raw

/-- Is the chunk a text run? -/
def Chunk.isText : Chunk → Bool
  | .textC _ => true
  | _ => false

/-- Well-formedness of a chunk stream: every chunk ok, no two adjacent
text runs. -/
def chunksWF (l : List Chunk) : Prop :=
  (∀ c ∈ l, c.ok) ∧ l.Chain' fun a b => ¬(a.isText = true ∧ b.isText = true)

/-- Scanning a tag name up to its closing `>` emits one tag event. -/
theorem tokGo_tagName (t : List Char) : ∀ (acc : List Char) (isEnd : Bool) (rest : List Char),
    '>' ∉ t →
    tokGo (.tagName isEnd acc) (t ++ '>' :: rest)
      = (if isEnd then XmlEvent.endE ⟨acc.reverse ++ t⟩ else XmlEvent.startE ⟨acc.reverse ++ t⟩)
          :: tokGo (.text []) rest := by
  induction t with
  | nil =>
    intro acc isEnd rest _
    show tokGo (.tagName isEnd acc) ('>' :: rest) = _
    rw [tokGo, if_pos rfl]
    simp
  | cons a t' ih =>
    intro acc isEnd rest h
    simp only [List.mem_cons, not_or] at h
    show tokGo (.tagName isEnd acc) (a :: (t' ++ '>' :: rest)) = _
    rw [tokGo, if_neg (by exact fun hc => h.1 hc.symm), ih (a :: acc) isEnd rest h.2]
    simp

/-- Scanning a text run emits one decoded text event. -/
theorem tokGo_text (txt : List Char) : ∀ (acc rest : List Char),
    (∀ c ∈ txt, c ≠ '<') → (acc ≠ [] ∨ txt ≠ []) →
    (rest = [] ∨ ∃ r', rest = '<' :: r') →
    tokGo (.text acc) (txt ++ rest)
      = .charsE ⟨unescapeL (acc.reverse ++ txt)⟩ :: tokGo (.text []) rest := by
  induction txt with
  | nil =>
    intro acc rest _ hne hrest
    have haccne : acc ≠ [] := by
      rcases hne with h | h
      · exact h
      · exact absurd rfl h
    rcases hrest with hrest | ⟨r', hrest⟩ <;> subst hrest
    · show tokGo (.text acc) [] = _
      rw [tokGo, if_neg (by simp [haccne])]
      simp [tokGo]
    · show tokGo (.text acc) ('<' :: r') = _
      rw [tokGo, if_pos rfl]
      simp only [List.append_nil]
      show _ = XmlEvent.charsE ⟨unescapeL acc.reverse⟩ :: tokGo (.text []) ('<' :: r')
      rw [tokGo, if_pos rfl]
      simp [haccne]
  | cons c txt' ih =>
    intro acc rest hlt hne hrest
    have hc : c ≠ '<' := hlt c (List.mem_cons_self _ _)
    show tokGo (.text acc) (c :: (txt' ++ rest)) = _
    rw [tokGo, if_neg hc,
      ih (c :: acc) rest (fun d hd => hlt d (List.mem_cons_of_mem _ hd))
        (Or.inl (List.cons_ne_nil _ _)) hrest]
    simp

/-- An opening tag at the start of the stream emits `startE`. -/
theorem tokGo_startTag (n : String) (rest : List Char) (hgt : '>' ∉ n.data)
    (hne : n.data ≠ []) (hsl : n.data.head? ≠ some '/') :
    tokGo (.text []) ('<' :: n.data ++ '>' :: rest) = .startE n :: tokGo (.text []) rest := by
  show tokGo (.text []) ('<' :: (n.data ++ '>' :: rest)) = _
  rw [tokGo, if_pos rfl]
  obtain ⟨h, t, hdata⟩ := List.exists_cons_of_ne_nil hne
  rw [hdata] at hgt hsl ⊢
  simp only [List.mem_cons, not_or] at hgt
  have hh : h ≠ '/' := by
    intro hc
    exact hsl (by rw [hc]; rfl)
  show tokGo .tagOpen (h :: (t ++ '>' :: rest)) = _
  rw [tokGo, if_neg hh, tokGo_tagName t [h] false rest hgt.2]
  simp only [List.reverse_singleton, List.singleton_append, if_neg Bool.false_ne_true]
  rw [← hdata]

/-- A closing tag at the start of the stream emits `endE`. -/
theorem tokGo_endTag (n : String) (rest : List Char) (hgt : '>' ∉ n.data) :
    tokGo (.text []) ('<' :: '/' :: n.data ++ '>' :: rest)
      = .endE n :: tokGo (.text []) rest := by
  show tokGo (.text []) ('<' :: ('/' :: n.data ++ '>' :: rest)) = _
  rw [tokGo, if_pos rfl]
  show tokGo .tagOpen ('/' :: (n.data ++ '>' :: rest)) = _
  rw [tokGo, if_pos rfl, tokGo_tagName n.data [] true rest hgt]
  simp only [List.reverse_nil, List.nil_append, if_pos rfl]
  congr 1

/-- The tokenizer turns a well-formed chunk stream into exactly one event
per chunk. -/
theorem tokGo_chunks (l : List Chunk) (hwf : chunksWF l) :
    tokGo (.text []) (flatChunks l) = l.map Chunk.toEvent := by
  induction l with
  | nil => rfl
  | cons ch l' ih =>
    obtain ⟨hok, hchain⟩ := hwf
    have hok1 := hok ch (List.mem_cons_self _ _)
    have hwf' : chunksWF l' :=
      ⟨fun c hc => hok c (List.mem_cons_of_mem _ hc), hchain.tail⟩
    have hflat : flatChunks (ch :: l') = ch.flat ++ flatChunks l' := by
      show ((ch :: l').map Chunk.flat).flatten = _
      rw [List.map_cons, List.flatten_cons]
      rfl
    rw [hflat, List.map_cons]
    cases ch with
    | tagC isEnd n =>
      obtain ⟨hgt, hopen⟩ := hok1
      cases isEnd with
      | true =>
        show tokGo (.text []) (('<' :: '/' :: n.data ++ ['>']) ++ flatChunks l') = _
        rw [List.append_assoc, List.singleton_append, tokGo_endTag n _ hgt, ih hwf']
        rfl
      | false =>
        obtain ⟨hne, hsl⟩ := hopen rfl
        show tokGo (.text []) (('<' :: n.data ++ ['>']) ++ flatChunks l') = _
        rw [List.append_assoc, List.singleton_append, tokGo_startTag n _ hgt hne hsl, ih hwf']
        rfl
    | textC raw =>
      obtain ⟨hne, hlt⟩ := hok1
      have hrest : flatChunks l' = [] ∨ ∃ r', flatChunks l' = '<' :: r' := by
        cases l' with
        | nil => exact Or.inl rfl
        | cons ch2 l'' =>
          cases ch2 with
          | tagC isEnd2 n2 =>
            refine Or.inr ?_
            cases isEnd2 with
            | true =>
              exact ⟨'/' :: n2.data ++ '>' :: flatChunks l'',
                by show (('<' :: '/' :: n2.data) ++ ['>']) ++ flatChunks l'' = _; simp⟩
            | false =>
              exact ⟨n2.data ++ '>' :: flatChunks l'',
                by show (('<' :: n2.data) ++ ['>']) ++ flatChunks l'' = _; simp⟩
          | textC raw2 =>
            exfalso
            have := List.chain'_cons.mp hchain
            exact this.1 ⟨rfl, rfl⟩
      show tokGo (.text []) (raw ++ flatChunks l') = _
      rw [tokGo_text raw [] _ (fun c hc hc2 => hlt (hc2 ▸ hc)) (Or.inr hne) hrest, ih hwf']
      rfl

/-- No two adjacent text runs in a chunk stream. -/
def noAdjText : List Chunk → Bool
  | [] => true
  | [_] => true
  | a :: b :: r => !(a.isText && b.isText) && noAdjText (b :: r)

/-- The stream does not begin with a text run. -/
def headNotText : List Chunk → Bool
  | [] => true
  | c :: _ => !c.isText

/-- The stream does not end with a text run. -/
def lastNotText : List Chunk → Bool
  | [] => true
  | [c] => !c.isText
  | _ :: b :: r => lastNotText (b :: r)

/-- `noAdjText` composes over append when the seam has a tag on at least
one side. -/
theorem noAdjText_append {l1 l2 : List Chunk} (h1 : noAdjText l1 = true)
    (h2 : noAdjText l2 = true) (hseam : lastNotText l1 = true ∨ headNotText l2 = true) :
    noAdjText (l1 ++ l2) = true := by
  induction l1 with
  | nil => simpa using h2
  | cons a r ih =>
    cases r with
    | nil =>
      cases l2 with
      | nil => simpa using h1
      | cons b r2 =>
        show noAdjText (a :: b :: r2) = true
        rw [noAdjText]
        simp only [Bool.and_eq_true, Bool.not_eq_true']
        refine ⟨?_, h2⟩
        rcases hseam with hs | hs
        · have : a.isText = false := by simpa [lastNotText] using hs
          simp [this]
        · have : b.isText = false := by simpa [headNotText] using hs
          simp [this]
    | cons b r' =>
      rw [noAdjText] at h1
      simp only [Bool.and_eq_true] at h1
      have hseam' : lastNotText (b :: r') = true ∨ headNotText l2 = true := by
        rcases hseam with hs | hs
        · exact Or.inl (by simpa [lastNotText] using hs)
        · exact Or.inr hs
      have := ih h1.2 hseam'
      show noAdjText (a :: b :: (r' ++ l2)) = true
      rw [noAdjText]
      simp only [Bool.and_eq_true]
      exact ⟨h1.1, this⟩

/-- `noAdjText` implies the pairwise-chain form used by the tokenizer. -/
theorem chain'_of_noAdjText (l : List Chunk) (h : noAdjText l = true) :
    l.Chain' fun a b => ¬(a.isText = true ∧ b.isText = true) := by
  induction l with
  | nil => exact List.chain'_nil
  | cons a r ih =>
    cases r with
    | nil => exact List.chain'_singleton a
    | cons b r' =>
      rw [noAdjText] at h
      simp only [Bool.and_eq_true, Bool.not_eq_true', Bool.and_eq_false_iff] at h
      refine List.chain'_cons.mpr ⟨?_, ih h.2⟩
      intro ⟨ha, hb⟩
      rcases h.1 with hc | hc
      · rw [ha] at hc; cases hc
      · rw [hb] at hc; cases hc

/-- Package the two stream conditions into `chunksWF`. -/
theorem chunksWF_mk {l : List Chunk} (hok : ∀ c ∈ l, c.ok) (hadj : noAdjText l = true) :
    chunksWF l :=
  ⟨hok, chain'_of_noAdjText l hadj⟩

/-- The tail of a seam determines `lastNotText` of an append. -/
theorem lastNotText_append {l1 l2 : List Chunk} (h : l2 ≠ []) :
    lastNotText (l1 ++ l2) = lastNotText l2 := by
  induction l1 with
  | nil => rfl
  | cons a r ih =>
    show lastNotText (a :: (r ++ l2)) = _
    cases hr : r ++ l2 with
    | nil =>
      exact absurd (List.append_eq_nil.mp hr).2 h
    | cons b r2 =>
      show lastNotText (b :: r2) = lastNotText l2
      rw [← hr]
      exact ih

/-- Plain text for the XML tokenizer: no markup, no entity starter. -/
def xmlSafe (s : String) : Bool :=
  s.data.all fun c => !(c == '<') && !(c == '&')

/-- Decidable check of the `BTreeMap` sortedness invariant (character-list
comparison, which the kernel can evaluate). -/
def sortedKeysB : List (String × Value) → Bool
  | [] => true
  | [_] => true
  | (k1, _) :: (k2, v2) :: r => decide (k1.data < k2.data) && sortedKeysB ((k2, v2) :: r)

mutual

/-- The round-trip hypotheses of §8 on one value tree: no NaN double, the
external float conversion round-trips on every double present and emits
tokenizer-safe text (no `<`/`&`, which the real float formatter never
emits), every datetime's ISO text is tokenizer-safe, and every struct obeys
the `BTreeMap` sortedness invariant (true of every constructible map). -/
def Value.rtSafe (ftd : F64 → String) (pfd : String → Option F64) : Value → Bool
  | .Double d => !d.isNan && xmlSafe (ftd d) && (pfd (ftd d) == some d)
  | .DateTime dt => xmlSafe dt.iso
  | .Struct m => sortedKeysB m && rtSafeMembers ftd pfd m
  | .Array xs => rtSafeItems ftd pfd xs
  | _ => true

/-- `rtSafe` over a member list. -/
def rtSafeMembers (ftd : F64 → String) (pfd : String → Option F64) :
    List (String × Value) → Bool
  | [] => true
  | (_, v) :: r => v.rtSafe ftd pfd && rtSafeMembers ftd pfd r

/-- `rtSafe` over an element list. -/
def rtSafeItems (ftd : F64 → String) (pfd : String → Option F64) : List Value → Bool
  | [] => true
  | v :: r => v.rtSafe ftd pfd && rtSafeItems ftd pfd r

end

/-- A possibly-empty raw text piece as a chunk stream. -/
def chunkText (raw : List Char) : List Chunk :=
  if raw = [] then [] else [.textC raw]

/-- The newline the serializer writes after every element line. -/
def nlC : Chunk :=
  .textC ['\n']

mutual

/-- The serializer's output for one value as a chunk stream (without the
newline that follows the closing `</value>`). -/
def Value.chunks (ftd : F64 → String) : Value → List Chunk
  | .Int i => [.tagC false "value", nlC, .tagC false "i4"] ++ chunkText (decRepr i).data
      ++ [.tagC true "i4", nlC, .tagC true "value"]
  | .Bool b => [.tagC false "value", nlC, .tagC false "boolean",
      .textC (if b then "1" else "0").data, .tagC true "boolean", nlC, .tagC true "value"]
  | .String s => [.tagC false "value", nlC, .tagC false "string"]
      ++ chunkText (escape_xml s).data ++ [.tagC true "string", nlC, .tagC true "value"]
  | .Double d => [.tagC false "value", nlC, .tagC false "double"]
      ++ chunkText (ftd d).data ++ [.tagC true "double", nlC, .tagC true "value"]
  | .DateTime dt => [.tagC false "value", nlC, .tagC false "dateTime.iso8601"]
      ++ chunkText (format_datetime dt).data
      ++ [.tagC true "dateTime.iso8601", nlC, .tagC true "value"]
  | .Base64 data => [.tagC false "value", nlC, .tagC false "base64"]
      ++ chunkText (encode data).data ++ [.tagC true "base64", nlC, .tagC true "value"]
  | .Struct m => [.tagC false "value", nlC, .tagC false "struct", nlC]
      ++ chunksMembers ftd m ++ [.tagC true "struct", nlC, .tagC true "value"]
  | .Array xs => [.tagC false "value", nlC, .tagC false "array", nlC, .tagC false "data", nlC]
      ++ chunksItems ftd xs ++ [.tagC true "data", nlC, .tagC true "array", nlC, .tagC true "value"]

/-- Chunk stream of a member list. -/
def chunksMembers (ftd : F64 → String) : List (String × Value) → List Chunk
  | [] => []
  | (name, v) :: rest => [.tagC false "member", nlC, .tagC false "name"]
      ++ chunkText (escape_xml name).data ++ [.tagC true "name", nlC]
      ++ Value.chunks ftd v ++ [nlC, .tagC true "member", nlC]
      ++ chunksMembers ftd rest

/-- Chunk stream of an element list. -/
def chunksItems (ftd : F64 → String) : List Value → List Chunk
  | [] => []
  | v :: rest => Value.chunks ftd v ++ [nlC] ++ chunksItems ftd rest

end

/-- `flatChunks` distributes over append. -/
theorem flatChunks_append (l1 l2 : List Chunk) :
    flatChunks (l1 ++ l2) = flatChunks l1 ++ flatChunks l2 := by
  simp [flatChunks]

/-- `flatChunks` on a cons. -/
theorem flatChunks_cons (c : Chunk) (l : List Chunk) :
    flatChunks (c :: l) = c.flat ++ flatChunks l := rfl

/-- `flatChunks` on a text piece. -/
theorem flatChunks_chunkText (raw : List Char) : flatChunks (chunkText raw) = raw := by
  rw [chunkText]
  split
  · rename_i h; rw [h]; rfl
  · show raw ++ [] = raw; simp

/-- The serializer's text is exactly its chunk stream flattened, plus the
newline after the closing `</value>`. -/
theorem format_data_chunks (ftd : F64 → String) (v : Value) :
    (Value.format ftd v).data = flatChunks (Value.chunks ftd v) ++ ['\n'] := by
  induction v using Value.inductionOn with
  | hInt i =>
    simp only [Value.format, Value.chunks, String.data_append, flatChunks_append,
      flatChunks_chunkText, List.append_assoc]
    exact rfl
  | hBool b =>
    cases b <;>
      simp only [Value.format, Value.chunks, String.data_append, flatChunks_append,
        flatChunks_chunkText, List.append_assoc] <;>
      exact rfl
  | hString s =>
    simp only [Value.format, Value.chunks, String.data_append, flatChunks_append,
      flatChunks_chunkText, List.append_assoc]
    exact rfl
  | hDouble d =>
    simp only [Value.format, Value.chunks, String.data_append, flatChunks_append,
      flatChunks_chunkText, List.append_assoc]
    exact rfl
  | hDT dt =>
    simp only [Value.format, Value.chunks, String.data_append, flatChunks_append,
      flatChunks_chunkText, List.append_assoc]
    exact rfl
  | hB64 data =>
    simp only [Value.format, Value.chunks, String.data_append, flatChunks_append,
      flatChunks_chunkText, List.append_assoc]
    exact rfl
  | hStruct m ih =>
    have hmem : ∀ m', (∀ kv ∈ m',
        (Value.format ftd kv.2).data = flatChunks (Value.chunks ftd kv.2) ++ ['\n']) →
        (formatMembers ftd m').data = flatChunks (chunksMembers ftd m') := by
      intro m'
      induction m' with
      | nil => intro _; rfl
      | cons kv rest ihr =>
        intro hm
        obtain ⟨name, v'⟩ := kv
        have h1 : (Value.format ftd v').data = flatChunks (Value.chunks ftd v') ++ ['\n'] :=
          hm (name, v') (List.mem_cons_self _ _)
        have h2 := ihr fun kv hkv => hm kv (List.mem_cons_of_mem _ hkv)
        simp only [formatMembers, chunksMembers, String.data_append, flatChunks_append,
          flatChunks_chunkText, h1, h2, List.append_assoc]
        exact rfl
    simp only [Value.format, Value.chunks, String.data_append, flatChunks_append,
      flatChunks_chunkText, hmem m ih, List.append_assoc]
    exact rfl
  | hArray xs ih =>
    have hmem : ∀ xs', (∀ x ∈ xs',
        (Value.format ftd x).data = flatChunks (Value.chunks ftd x) ++ ['\n']) →
        (formatItems ftd xs').data = flatChunks (chunksItems ftd xs') := by
      intro xs'
      induction xs' with
      | nil => intro _; rfl
      | cons x rest ihr =>
        intro hm
        have h1 := hm x (List.mem_cons_self _ _)
        have h2 := ihr fun y hy => hm y (List.mem_cons_of_mem _ hy)
        simp only [formatItems, chunksItems, String.data_append, flatChunks_append,
          h1, h2, List.append_assoc]
        exact rfl
    simp only [Value.format, Value.chunks, String.data_append, flatChunks_append,
      hmem xs ih, List.append_assoc]
    exact rfl

/-- Unpack `xmlSafe`. -/
theorem xmlSafe_spec {s : String} (h : xmlSafe s = true) :
    ∀ c ∈ s.data, c ≠ '<' ∧ c ≠ '&' := by
  intro c hc
  rw [xmlSafe, List.all_eq_true] at h
  have := h c hc
  simp only [Bool.and_eq_true, Bool.not_eq_true', beq_eq_false_iff_ne] at this
  exact this

/-- Digits are plain text for the tokenizer. -/
theorem isDigit_tokSafe {c : Char} (h : c.isDigit = true) : c ≠ '<' ∧ c ≠ '&' := by
  constructor <;> intro heq <;> subst heq <;> exact absurd h (by decide)

/-- The serializer's integer text is plain text for the tokenizer. -/
theorem decRepr_tokSafe (i : Int) : ∀ c ∈ (decRepr i).data, c ≠ '<' ∧ c ≠ '&' := by
  intro c hc
  rw [decRepr] at hc
  split at hc
  · have hc2 : c ∈ '-' :: natRepr i.natAbs := hc
    rcases List.mem_cons.mp hc2 with hc3 | hc3
    · subst hc3; exact (by decide)
    · exact isDigit_tokSafe (natReprAux_digits _ _ c hc3)
  · have hc2 : c ∈ natRepr i.natAbs := hc
    exact isDigit_tokSafe (natReprAux_digits _ _ c hc2)

/-- Escaped text is ok as a text chunk. -/
theorem chunkText_ok_of_no_lt {raw : List Char} (h : '<' ∉ raw) :
    ∀ c ∈ chunkText raw, c.ok := by
  intro c hc
  rw [chunkText] at hc
  split at hc
  · cases hc
  · rename_i hne
    rw [List.mem_singleton] at hc
    subst hc
    exact ⟨hne, h⟩

/-- `noAdjText` holds for any text piece alone. -/
theorem noAdjText_chunkText (raw : List Char) : noAdjText (chunkText raw) = true := by
  rw [chunkText]
  split <;> rfl

/-- `headNotText` of an append from both sides. -/
theorem headNotText_append_true {l1 l2 : List Chunk} (h1 : headNotText l1 = true)
    (h2 : headNotText l2 = true) : headNotText (l1 ++ l2) = true := by
  cases l1 with
  | nil => exact h2
  | cons a r => exact h1

/-- Every value's chunk stream begins with the `<value>` tag. -/
theorem chunks_headNotText (ftd : F64 → String) (v : Value) :
    headNotText (Value.chunks ftd v) = true := by
  cases v <;> rfl

/-- A value's chunk stream is never empty. -/
theorem chunks_ne_nil (ftd : F64 → String) (v : Value) : Value.chunks ftd v ≠ [] := by
  cases v <;> simp [Value.chunks]

/-- Every value's chunk stream ends with the `</value>` tag. -/
theorem chunks_lastNotText (ftd : F64 → String) (v : Value) :
    lastNotText (Value.chunks ftd v) = true := by
  cases v <;>
    first
    | rfl
    | · rw [Value.chunks, lastNotText_append (by simp)]
        rfl

/-- Ok-ness joins over append. -/
theorem ok_append {l1 l2 : List Chunk} (h1 : ∀ c ∈ l1, c.ok) (h2 : ∀ c ∈ l2, c.ok) :
    ∀ c ∈ l1 ++ l2, c.ok := by
  intro c hc
  rcases List.mem_append.mp hc with hc | hc
  · exact h1 c hc
  · exact h2 c hc

/-- `headNotText` of a member-list stream. -/
theorem chunksMembers_headNotText (ftd : F64 → String) (m : List (String × Value)) :
    headNotText (chunksMembers ftd m) = true := by
  cases m with
  | nil => rfl
  | cons kv rest => obtain ⟨k, v⟩ := kv; rfl

/-- `headNotText` of an append with a non-empty left part. -/
theorem headNotText_append_left {l1 l2 : List Chunk} (h : l1 ≠ []) :
    headNotText (l1 ++ l2) = headNotText l1 := by
  cases l1 with
  | nil => exact absurd rfl h
  | cons a r => rfl

/-- `headNotText` of an element-list stream. -/
theorem chunksItems_headNotText (ftd : F64 → String) (xs : List Value) :
    headNotText (chunksItems ftd xs) = true := by
  cases xs with
  | nil => rfl
  | cons x rest =>
    show headNotText ((Value.chunks ftd x ++ [nlC]) ++ chunksItems ftd rest) = true
    rw [headNotText_append_left (by simp [chunks_ne_nil]),
      headNotText_append_left (chunks_ne_nil ftd x)]
    exact chunks_headNotText ftd x

instance chunkOkDec : DecidablePred Chunk.ok := fun c =>
  match c with
  | .tagC _ _ => by unfold Chunk.ok; infer_instance
  | .textC _ => by unfold Chunk.ok; infer_instance

/-- Under the round-trip hypotheses, a value's chunk stream is
well-formed: every chunk ok and no two adjacent text runs. -/
theorem chunks_wf (ftd : F64 → String) (pfd : String → Option F64) (v : Value)
    (h : v.rtSafe ftd pfd = true) :
    (∀ c ∈ Value.chunks ftd v, c.ok) ∧ noAdjText (Value.chunks ftd v) = true := by
  induction v using Value.inductionOn with
  | hInt i =>
    refine ⟨ok_append (ok_append (by decide)
        (chunkText_ok_of_no_lt fun hm => absurd rfl (decRepr_tokSafe i '<' hm).1)) (by decide),
      noAdjText_append (noAdjText_append (by decide) (noAdjText_chunkText _)
        (Or.inl (by decide))) (by decide) (Or.inr (by decide))⟩
  | hBool b =>
    cases b <;>
      exact ⟨by rw [Value.chunks]; decide, by rw [Value.chunks]; decide⟩
  | hString s =>
    refine ⟨ok_append (ok_append (by decide)
        (chunkText_ok_of_no_lt (escape_xml_no_lt s))) (by decide),
      noAdjText_append (noAdjText_append (by decide) (noAdjText_chunkText _)
        (Or.inl (by decide))) (by decide) (Or.inr (by decide))⟩
  | hDouble d =>
    rw [Value.rtSafe, Bool.and_eq_true, Bool.and_eq_true] at h
    have hsafe := xmlSafe_spec h.1.2
    refine ⟨ok_append (ok_append (by decide)
        (chunkText_ok_of_no_lt fun hm => absurd rfl (hsafe '<' hm).1)) (by decide),
      noAdjText_append (noAdjText_append (by decide) (noAdjText_chunkText _)
        (Or.inl (by decide))) (by decide) (Or.inr (by decide))⟩
  | hDT dt =>
    rw [Value.rtSafe] at h
    have hsafe := xmlSafe_spec h
    refine ⟨ok_append (ok_append (by decide)
        (chunkText_ok_of_no_lt fun hm => absurd rfl (hsafe '<' hm).1)) (by decide),
      noAdjText_append (noAdjText_append (by decide) (noAdjText_chunkText _)
        (Or.inl (by decide))) (by decide) (Or.inr (by decide))⟩
  | hB64 data =>
    refine ⟨ok_append (ok_append (by decide)
        (chunkText_ok_of_no_lt fun hm => absurd rfl ((b64encodeL_tokSafe data '<' hm).1))) (by decide),
      noAdjText_append (noAdjText_append (by decide) (noAdjText_chunkText _)
        (Or.inl (by decide))) (by decide) (Or.inr (by decide))⟩
  | hStruct m ih =>
    rw [Value.rtSafe, Bool.and_eq_true] at h
    have hm : ∀ m', (∀ kv ∈ m', kv.2.rtSafe ftd pfd = true →
        (∀ c ∈ Value.chunks ftd kv.2, c.ok) ∧ noAdjText (Value.chunks ftd kv.2) = true) →
        rtSafeMembers ftd pfd m' = true →
        (∀ c ∈ chunksMembers ftd m', c.ok) ∧ noAdjText (chunksMembers ftd m') = true := by
      intro m'
      induction m' with
      | nil => intro _ _; exact ⟨by simp [chunksMembers], rfl⟩
      | cons kv rest ihr =>
        intro hall hsafe
        obtain ⟨name, v'⟩ := kv
        rw [rtSafeMembers, Bool.and_eq_true] at hsafe
        have hv := hall (name, v') (List.mem_cons_self _ _) hsafe.1
        have hrest := ihr (fun kv hkv => hall kv (List.mem_cons_of_mem _ hkv)) hsafe.2
        show (∀ c ∈ [Chunk.tagC false "member", nlC, Chunk.tagC false "name"]
            ++ chunkText (escape_xml name).data ++ [Chunk.tagC true "name", nlC]
            ++ Value.chunks ftd v' ++ [nlC, Chunk.tagC true "member", nlC]
            ++ chunksMembers ftd rest, c.ok) ∧ _ = true
        constructor
        · exact ok_append (ok_append (ok_append (ok_append (ok_append (by decide)
            (chunkText_ok_of_no_lt (escape_xml_no_lt name))) (by decide)) hv.1)
            (by decide)) hrest.1
        · refine noAdjText_append (noAdjText_append (noAdjText_append (noAdjText_append
            (noAdjText_append (by decide) (noAdjText_chunkText _) (Or.inl (by decide)))
            (by decide) (Or.inr (by decide)))
            hv.2 (Or.inr (chunks_headNotText ftd v')))
            (by decide) (Or.inl ?_))
            hrest.2 (Or.inr (chunksMembers_headNotText ftd rest))
          rw [lastNotText_append (chunks_ne_nil ftd v')]
          exact chunks_lastNotText ftd v'
    have hmm := hm m (fun kv hkv => ih kv hkv) h.2
    refine ⟨ok_append (ok_append (by decide) hmm.1) (by decide),
      noAdjText_append (noAdjText_append (by decide) hmm.2
        (Or.inr (chunksMembers_headNotText ftd m))) (by decide) (Or.inr (by decide))⟩
  | hArray xs ih =>
    rw [Value.rtSafe] at h
    have hi : ∀ xs', (∀ x ∈ xs', x.rtSafe ftd pfd = true →
        (∀ c ∈ Value.chunks ftd x, c.ok) ∧ noAdjText (Value.chunks ftd x) = true) →
        rtSafeItems ftd pfd xs' = true →
        (∀ c ∈ chunksItems ftd xs', c.ok) ∧ noAdjText (chunksItems ftd xs') = true := by
      intro xs'
      induction xs' with
      | nil => intro _ _; exact ⟨by simp [chunksItems], rfl⟩
      | cons x rest ihr =>
        intro hall hsafe
        rw [rtSafeItems, Bool.and_eq_true] at hsafe
        have hv := hall x (List.mem_cons_self _ _) hsafe.1
        have hrest := ihr (fun y hy => hall y (List.mem_cons_of_mem _ hy)) hsafe.2
        show (∀ c ∈ Value.chunks ftd x ++ [nlC] ++ chunksItems ftd rest, c.ok) ∧ _ = true
        refine ⟨ok_append (ok_append hv.1 (by decide)) hrest.1,
          noAdjText_append (noAdjText_append hv.2 (by decide)
            (Or.inl (chunks_lastNotText ftd x))) hrest.2
            (Or.inr (chunksItems_headNotText ftd rest))⟩
    have hii := hi xs (fun x hx => ih x hx) h
    refine ⟨ok_append (ok_append (by decide) hii.1) (by decide),
      noAdjText_append (noAdjText_append (by decide) hii.2
        (Or.inr (chunksItems_headNotText ftd xs))) (by decide) (Or.inr (by decide))⟩

/-- The dummy document position of the modelled parser (the tokenizer
abstraction carries no positions). -/
def pos0 : TextPosition :=
  ⟨0, 0⟩

/-- Whitespace-only text, ignorable between structural tags. -/
def isWsOnly (s : String) : Bool :=
  s.data.all fun c => c == ' ' || c == '\t' || c == '\r' || c == '\n'

/-- Skip ignorable whitespace events before a structural tag. -/
def skipWs : List XmlEvent → List XmlEvent
  | .charsE s :: rest => if isWsOnly s then skipWs rest else .charsE s :: rest
  | ts => ts

/-- Take the text content at a content position (empty when the element
has no text child). -/
def takeText : List XmlEvent → String × List XmlEvent
  | .charsE s :: rest => (s, rest)
  | ts => ("", ts)

/-- Require the closing tag of `tag` right here. -/
def expectEnd (tag : String) : List XmlEvent → Except ParseError (List XmlEvent)
  | .endE t :: rest =>
    if t = tag then .ok rest else .error (.UnexpectedXml ("</" ++ tag ++ ">") pos0)
  | _ => .error (.UnexpectedXml ("</" ++ tag ++ ">") pos0)

/-- Require the closing tag of `tag` after ignorable whitespace. -/
def expectEndWs (tag : String) (ts : List XmlEvent) : Except ParseError (List XmlEvent) :=
  expectEnd tag (skipWs ts)

/-- Modelled from the spec: the external `iso8601` datetime parser,
abstracted (like `DateTime` itself) to the ISO 8601 text, so it accepts
exactly the texts `format_datetime` produces. -/
def parse_datetime (s : String) : Option DateTime :=
  some ⟨s⟩

/-- Modelled from the spec (§4.3): decode the accumulated text of a scalar
type tag.  Failure to parse the content yields `InvalidValue` with a
description naming the offending tag and content; an unrecognized tag
yields `UnexpectedXml`.  `pfd` is the external float-from-text conversion. -/
def parseScalar (pfd : String → Option F64) (tag : String) (txt : String) :
    Except ParseError Value :=
  if tag = "i4" ∨ tag = "int" then
    match parseIntText txt with
    | some i => .ok (.Int i)
    | none => .error (.InvalidValue ("<" ++ tag ++ "> " ++ txt))
  else if tag = "boolean" then
    if txt = "1" then .ok (.Bool true)
    else if txt = "0" then .ok (.Bool false)
    else .error (.InvalidValue ("<boolean> " ++ txt))
  else if tag = "string" then .ok (.String txt)
  else if tag = "double" then
    match pfd txt with
    | some d => .ok (.Double d)
    | none => .error (.InvalidValue ("<double> " ++ txt))
  else if tag = "dateTime.iso8601" then
    match parse_datetime txt with
    | some dt => .ok (.DateTime dt)
    | none => .error (.InvalidValue ("<dateTime.iso8601> " ++ txt))
  else if tag = "base64" then
    match b64decodeL txt.data with
    | some data => .ok (.Base64 data)
    | none => .error (.InvalidValue ("<base64> " ++ txt))
  else .error (.UnexpectedXml "value type tag" pos0)

mutual

/-- Modelled from the spec (§4.3): recursive-descent decoding of one
`<value>` element from the event stream, returning the decoded value and
the remaining events.  The recursion of the spec's parser is bounded by
its input; the explicit fuel makes that bound a parameter, and every
recursive call spends one unit. -/
def parseValue (pfd : String → Option F64) : Nat → List XmlEvent →
    Except ParseError (Value × List XmlEvent)
  | 0, _ => .error (.UnexpectedXml "value (recursion limit)" pos0)
  | fuel + 1, ts =>
    match skipWs ts with
    | .startE tv :: r1 =>
      if tv = "value" then
        match skipWs r1 with
        | .startE tag :: r2 =>
          if tag = "struct" then do
            let (m, r3) ← parseMembers pfd fuel [] r2
            let r4 ← expectEndWs "value" r3
            .ok (.Struct m, r4)
          else if tag = "array" then
            match skipWs r2 with
            | .startE td :: r3 =>
              if td = "data" then do
                let (xs, r4) ← parseItems pfd fuel r3
                let r5 ← expectEndWs "array" r4
                let r6 ← expectEndWs "value" r5
                .ok (.Array xs, r6)
              else .error (.UnexpectedXml "<data>" pos0)
            | _ => .error (.UnexpectedXml "<data>" pos0)
          else do
            let (txt, r3) := takeText r2
            let v ← parseScalar pfd tag txt
            let r4 ← expectEnd tag r3
            let r5 ← expectEndWs "value" r4
            .ok (v, r5)
        | _ => .error (.UnexpectedXml "value type tag" pos0)
      else .error (.UnexpectedXml "<value>" pos0)
    | _ => .error (.UnexpectedXml "<value>" pos0)

/-- Modelled from the spec (§4.3): the `<struct>` member loop.  Each
`<member>` holds one `<name>` and one `<value>`; names are collected into
the result mapping as they arrive (`btreeInsert`, last write wins). -/
def parseMembers (pfd : String → Option F64) : Nat → List (String × Value) →
    List XmlEvent → Except ParseError (List (String × Value) × List XmlEvent)
  | 0, _, _ => .error (.UnexpectedXml "member (recursion limit)" pos0)
  | fuel + 1, acc, ts =>
    match skipWs ts with
    | .endE t :: r1 =>
      if t = "struct" then .ok (acc, r1)
      else .error (.UnexpectedXml "<member> or </struct>" pos0)
    | .startE t :: r1 =>
      if t = "member" then
        match skipWs r1 with
        | .startE tn :: r2 =>
          if tn = "name" then do
            let (nm, r3) := takeText r2
            let r4 ← expectEnd "name" r3
            let (v, r5) ← parseValue pfd fuel r4
            let r6 ← expectEndWs "member" r5
            parseMembers pfd fuel (btreeInsert nm v acc) r6
          else .error (.UnexpectedXml "<name>" pos0)
        | _ => .error (.UnexpectedXml "<name>" pos0)
      else .error (.UnexpectedXml "<member> or </struct>" pos0)
    | _ => .error (.UnexpectedXml "<member> or </struct>" pos0)

/-- Modelled from the spec (§4.3): the `<array><data>` element loop,
collecting nested `<value>`s in document order. -/
def parseItems (pfd : String → Option F64) : Nat → List XmlEvent →
    Except ParseError (List Value × List XmlEvent)
  | 0, _ => .error (.UnexpectedXml "array item (recursion limit)" pos0)
  | fuel + 1, ts =>
    match skipWs ts with
    | .endE t :: r1 =>
      if t = "data" then .ok ([], r1)
      else .error (.UnexpectedXml "<value> or </data>" pos0)
    | ts' => do
      let (v, r2) ← parseValue pfd fuel ts'
      let (vs, r3) ← parseItems pfd fuel r2
      .ok (v :: vs, r3)

end

/-- Modelled from the spec (§4.3): decode one XML-RPC value from a whole
document: tokenize, parse one `<value>`, and require only ignorable
whitespace to follow.  The fuel is the event count, which bounds the
recursion of any successful parse. -/
def parse (pfd : String → Option F64) (s : String) : Except ParseError Value := do
  let ts := tokenizeL s.data
  let (v, rest) ← parseValue pfd (ts.length + 1) ts
  match skipWs rest with
  | [] => .ok v
  | _ => .error (.UnexpectedXml "end of document" pos0)

/-- Newline text is ignorable whitespace. -/
theorem skipWs_nl (ts : List XmlEvent) : skipWs (.charsE "\n" :: ts) = skipWs ts := rfl

/-- `skipWs` stops at a start tag. -/
theorem skipWs_start (t : String) (ts : List XmlEvent) :
    skipWs (.startE t :: ts) = .startE t :: ts := rfl

/-- `skipWs` stops at an end tag. -/
theorem skipWs_end (t : String) (ts : List XmlEvent) :
    skipWs (.endE t :: ts) = .endE t :: ts := rfl

/-- The parser ignores a leading newline: one value. -/
theorem parseValue_nl (pfd : String → Option F64) (fuel : Nat) (ts : List XmlEvent) :
    parseValue pfd fuel (.charsE "\n" :: ts) = parseValue pfd fuel ts := by
  cases fuel with
  | zero => rfl
  | succ f => rw [parseValue, parseValue, skipWs_nl]

/-- The parser ignores a leading newline: member loop. -/
theorem parseMembers_nl (pfd : String → Option F64) (fuel : Nat) (acc : List (String × Value))
    (ts : List XmlEvent) :
    parseMembers pfd fuel acc (.charsE "\n" :: ts) = parseMembers pfd fuel acc ts := by
  cases fuel with
  | zero => rfl
  | succ f => rw [parseMembers, parseMembers, skipWs_nl]

/-- The parser ignores a leading newline: element loop. -/
theorem parseItems_nl (pfd : String → Option F64) (fuel : Nat) (ts : List XmlEvent) :
    parseItems pfd fuel (.charsE "\n" :: ts) = parseItems pfd fuel ts := by
  cases fuel with
  | zero => rfl
  | succ f => rw [parseItems, parseItems, skipWs_nl]

mutual

/-- Fuel sufficient for the parser on this value's own token stream. -/
def Value.need : Value → Nat
  | .Struct m => 1 + needMembers m
  | .Array xs => 1 + needItems xs
  | _ => 1

/-- Fuel sufficient for the member loop. -/
def needMembers : List (String × Value) → Nat
  | [] => 1
  | (_, v) :: r => 1 + max v.need (needMembers r)

/-- Fuel sufficient for the element loop. -/
def needItems : List Value → Nat
  | [] => 1
  | v :: r => 1 + max v.need (needItems r)

end

/-- The required fuel never exceeds the chunk count of the serialized
form. -/
theorem need_le_chunks (ftd : F64 → String) (v : Value) :
    Value.need v ≤ (Value.chunks ftd v).length := by
  induction v using Value.inductionOn with
  | hInt i => simp [Value.need, Value.chunks]
  | hBool b => simp [Value.need, Value.chunks]
  | hString s => simp [Value.need, Value.chunks]
  | hDouble d => simp [Value.need, Value.chunks]
  | hDT dt => simp [Value.need, Value.chunks]
  | hB64 data => simp [Value.need, Value.chunks]
  | hStruct m ih =>
    have hm : ∀ m', (∀ kv ∈ m', Value.need kv.2 ≤ (Value.chunks ftd kv.2).length) →
        needMembers m' ≤ (chunksMembers ftd m').length + 1 := by
      intro m'
      induction m' with
      | nil => intro _; simp [needMembers, chunksMembers]
      | cons kv rest ihr =>
        intro hall
        obtain ⟨k, v'⟩ := kv
        have h1 : Value.need v' ≤ (Value.chunks ftd v').length :=
          hall (k, v') (List.mem_cons_self _ _)
        have h2 := ihr fun kv hkv => hall kv (List.mem_cons_of_mem _ hkv)
        rw [needMembers, chunksMembers]
        simp only [List.length_append, List.length_cons, List.length_nil]
        omega
    have := hm m ih
    rw [Value.need, Value.chunks]
    simp only [List.length_append, List.length_cons, List.length_nil]
    omega
  | hArray xs ih =>
    have hi : ∀ xs', (∀ x ∈ xs', Value.need x ≤ (Value.chunks ftd x).length) →
        needItems xs' ≤ (chunksItems ftd xs').length + 1 := by
      intro xs'
      induction xs' with
      | nil => intro _; simp [needItems, chunksItems]
      | cons x rest ihr =>
        intro hall
        have h1 := hall x (List.mem_cons_self _ _)
        have h2 := ihr fun y hy => hall y (List.mem_cons_of_mem _ hy)
        rw [needItems, chunksItems]
        simp only [List.length_append, List.length_cons, List.length_nil]
        omega
    have := hi xs ih
    rw [Value.need, Value.chunks]
    simp only [List.length_append, List.length_cons, List.length_nil]
    omega

/-- The decidable sortedness check implies the `Pairwise` invariant. -/
theorem keysSorted_of_sortedKeysB {l : List (String × Value)} (h : sortedKeysB l = true) :
    keysSorted l := by
  induction l with
  | nil => simp [keysSorted]
  | cons kv rest ih =>
    cases rest with
    | nil => simp [keysSorted]
    | cons kv2 rest2 =>
      obtain ⟨k1, v1'⟩ := kv
      obtain ⟨k2, v2'⟩ := kv2
      rw [sortedKeysB, Bool.and_eq_true, decide_eq_true_eq] at h
      have h1 : k1 < k2 := String.lt_iff_toList_lt.mpr h.1
      have htail := ih h.2
      rw [keysSorted, List.sorted_cons]
      refine ⟨?_, htail⟩
      intro x hx
      rcases List.mem_cons.mp hx with hx | hx
      · rw [hx]; exact h1
      · have := (List.sorted_cons.mp htail).1 x hx
        exact lt_trans h1 this

/-- Sorted keys are duplicate-free. -/
theorem keys_nodup_of_sorted {l : List (String × Value)} (h : keysSorted l) :
    (l.map Prod.fst).Nodup := by
  rw [keysSorted] at h
  have := List.Pairwise.map (f := Prod.fst)
    (fun {a b : String × Value} (hab : a.1 < b.1) => (ne_of_lt hab : a.1 ≠ b.1)) h
  exact this

/-- Folding the parser's inserts over an already-sorted member list
starting from the empty map reproduces the list. -/
theorem foldl_insert_sorted {m : List (String × Value)} (h : keysSorted m) :
    m.foldl (fun mm kv => btreeInsert kv.1 kv.2 mm) [] = m := by
  have hnd := keys_nodup_of_sorted h
  have hperm := btreeOfList_perm m hnd
  have hsorted := keysSorted_btreeOfList m
  haveI : IsAntisymm (String × Value) (fun a b => a.1 < b.1) :=
    ⟨fun a b hab hba => absurd hba (lt_asymm hab)⟩
  exact List.eq_of_perm_of_sorted hperm hsorted h

/-- The text events a (possibly empty) text content produces. -/
def textEvts (s : String) : List XmlEvent :=
  if s.data = [] then [] else [.charsE s]

/-- Text with no entity starter tokenizes to itself. -/
theorem map_chunkText_no_amp {t : String} (h : '&' ∉ t.data) :
    (chunkText t.data).map Chunk.toEvent = textEvts t := by
  rw [chunkText, textEvts]
  split
  · rfl
  · show [Chunk.toEvent (.textC t.data)] = _
    show [XmlEvent.charsE ⟨unescapeL t.data⟩] = _
    rw [unescapeL_eq_self h]

/-- Escaping produces empty text only for the empty string. -/
theorem escape_xml_data_eq_nil_iff (s : String) : (escape_xml s).data = [] ↔ s.data = [] := by
  rw [escape_xml_data]
  constructor
  · intro h
    cases hs : s.data with
    | nil => rfl
    | cons c cs =>
      rw [hs, List.flatMap_cons] at h
      rcases List.append_eq_nil.mp h with ⟨h1, _⟩
      by_cases h2 : c = '&'
      · simp [h2] at h1
      · by_cases h3 : c = '<' <;> simp [h2, h3] at h1
  · intro h
    rw [h]
    rfl

/-- Escaped text tokenizes back to the original string's events. -/
theorem map_chunkText_escape (s : String) :
    (chunkText (escape_xml s).data).map Chunk.toEvent = textEvts s := by
  rw [chunkText, textEvts]
  by_cases h : (escape_xml s).data = []
  · rw [if_pos h, if_pos ((escape_xml_data_eq_nil_iff s).mp h)]
    rfl
  · rw [if_neg h, if_neg (fun hc => h ((escape_xml_data_eq_nil_iff s).mpr hc))]
    show [XmlEvent.charsE ⟨unescapeL (escape_xml s).data⟩] = _
    rw [unescapeL_escape_xml]

/-- The serializer's integer text is never empty. -/
theorem decRepr_data_ne_nil (i : Int) : (decRepr i).data ≠ [] := by
  rw [decRepr]
  split
  · exact List.cons_ne_nil _ _
  · exact natReprAux_ne_nil _ _ (by omega)

/-- Token stream of an `Int` value. -/
theorem toks_int (ftd : F64 → String) (i : Int) :
    (Value.chunks ftd (.Int i)).map Chunk.toEvent
      = [.startE "value", .charsE "\n", .startE "i4", .charsE (decRepr i),
         .endE "i4", .charsE "\n", .endE "value"] := by
  rw [Value.chunks, List.map_append, List.map_append,
    map_chunkText_no_amp (fun hm => absurd rfl (decRepr_tokSafe i '&' hm).2), textEvts,
    if_neg (decRepr_data_ne_nil i)]
  rfl

/-- Token stream of a `Bool` value. -/
theorem toks_bool (ftd : F64 → String) (b : Bool) :
    (Value.chunks ftd (.Bool b)).map Chunk.toEvent
      = [.startE "value", .charsE "\n", .startE "boolean",
         .charsE (if b then "1" else "0"), .endE "boolean", .charsE "\n", .endE "value"] := by
  cases b <;> rfl

/-- Token stream of a `String` value. -/
theorem toks_string (ftd : F64 → String) (s : String) :
    (Value.chunks ftd (.String s)).map Chunk.toEvent
      = [.startE "value", .charsE "\n", .startE "string"] ++ textEvts s
          ++ [.endE "string", .charsE "\n", .endE "value"] := by
  rw [Value.chunks, List.map_append, List.map_append, map_chunkText_escape]
  rfl

/-- Token stream of a `Double` value, given tokenizer-safe float text. -/
theorem toks_double (ftd : F64 → String) (d : F64) (h : xmlSafe (ftd d) = true) :
    (Value.chunks ftd (.Double d)).map Chunk.toEvent
      = [.startE "value", .charsE "\n", .startE "double"] ++ textEvts (ftd d)
          ++ [.endE "double", .charsE "\n", .endE "value"] := by
  rw [Value.chunks, List.map_append, List.map_append,
    map_chunkText_no_amp (fun hm => absurd rfl ((xmlSafe_spec h) '&' hm).2)]
  rfl

/-- Token stream of a `DateTime` value, given tokenizer-safe ISO text. -/
theorem toks_datetime (ftd : F64 → String) (dt : DateTime) (h : xmlSafe dt.iso = true) :
    (Value.chunks ftd (.DateTime dt)).map Chunk.toEvent
      = [.startE "value", .charsE "\n", .startE "dateTime.iso8601"] ++ textEvts dt.iso
          ++ [.endE "dateTime.iso8601", .charsE "\n", .endE "value"] := by
  rw [Value.chunks, List.map_append, List.map_append]
  rw [show format_datetime dt = dt.iso from rfl,
    map_chunkText_no_amp (fun hm => absurd rfl ((xmlSafe_spec h) '&' hm).2)]
  rfl

/-- Token stream of a `Base64` value. -/
theorem toks_base64 (ftd : F64 → String) (data : List (Fin 256)) :
    (Value.chunks ftd (.Base64 data)).map Chunk.toEvent
      = [.startE "value", .charsE "\n", .startE "base64"] ++ textEvts (encode data)
          ++ [.endE "base64", .charsE "\n", .endE "value"] := by
  rw [Value.chunks, List.map_append, List.map_append,
    @map_chunkText_no_amp (encode data) (fun hm => absurd rfl ((b64encodeL_tokSafe data '&' hm)).2)]
  rfl

/-- Token stream of a `Struct` value. -/
theorem toks_struct (ftd : F64 → String) (m : List (String × Value)) :
    (Value.chunks ftd (.Struct m)).map Chunk.toEvent
      = [.startE "value", .charsE "\n", .startE "struct", .charsE "\n"]
          ++ (chunksMembers ftd m).map Chunk.toEvent
          ++ [.endE "struct", .charsE "\n", .endE "value"] := by
  rw [Value.chunks, List.map_append, List.map_append]
  rfl

/-- Token stream of one member block. -/
theorem toks_member (ftd : F64 → String) (name : String) (v : Value)
    (rest : List (String × Value)) :
    (chunksMembers ftd ((name, v) :: rest)).map Chunk.toEvent
      = [.startE "member", .charsE "\n", .startE "name"] ++ textEvts name
          ++ [.endE "name", .charsE "\n"] ++ (Value.chunks ftd v).map Chunk.toEvent
          ++ [.charsE "\n", .endE "member", .charsE "\n"]
          ++ (chunksMembers ftd rest).map Chunk.toEvent := by
  rw [chunksMembers, List.map_append, List.map_append, List.map_append, List.map_append,
    List.map_append, map_chunkText_escape]
  rfl

/-- Token stream of an `Array` value. -/
theorem toks_array (ftd : F64 → String) (xs : List Value) :
    (Value.chunks ftd (.Array xs)).map Chunk.toEvent
      = [.startE "value", .charsE "\n", .startE "array", .charsE "\n",
         .startE "data", .charsE "\n"]
          ++ (chunksItems ftd xs).map Chunk.toEvent
          ++ [.endE "data", .charsE "\n", .endE "array", .charsE "\n", .endE "value"] := by
  rw [Value.chunks, List.map_append, List.map_append]
  rfl

/-- Token stream of one array element block. -/
theorem toks_item (ftd : F64 → String) (v : Value) (rest : List Value) :
    (chunksItems ftd (v :: rest)).map Chunk.toEvent
      = (Value.chunks ftd v).map Chunk.toEvent ++ [.charsE "\n"]
          ++ (chunksItems ftd rest).map Chunk.toEvent := by
  rw [chunksItems, List.map_append, List.map_append]
  rfl

/-- Parser round trip for an `Int` token stream. -/
theorem parseValue_toks_int (ftd : F64 → String) (pfd : String → Option F64) (i : Int)
    (f : Nat) (rest : List XmlEvent) :
    parseValue pfd (f + 1) ((Value.chunks ftd (.Int i)).map Chunk.toEvent ++ rest)
      = .ok (.Int i, rest) := by
  rw [toks_int]
  show parseValue pfd (f + 1) (.startE "value" :: .charsE "\n" :: .startE "i4" ::
    .charsE (decRepr i) :: .endE "i4" :: .charsE "\n" :: .endE "value" :: rest) = _
  rw [parseValue]
  simp only [skipWs_start, skipWs_nl, skipWs_end, takeText, parseScalar, expectEndWs,
    expectEnd, parseIntText_decRepr, except_ok_bind, String.reduceEq, true_or, or_true,
    false_or, or_false, reduceIte]

/-- Parser round trip for a `Bool` token stream. -/
theorem parseValue_toks_bool (ftd : F64 → String) (pfd : String → Option F64) (b : Bool)
    (f : Nat) (rest : List XmlEvent) :
    parseValue pfd (f + 1) ((Value.chunks ftd (.Bool b)).map Chunk.toEvent ++ rest)
      = .ok (.Bool b, rest) := by
  rw [toks_bool]
  cases b with
  | true =>
    show parseValue pfd (f + 1) (.startE "value" :: .charsE "\n" :: .startE "boolean" ::
      .charsE "1" :: .endE "boolean" :: .charsE "\n" :: .endE "value" :: rest) = _
    rw [parseValue]
    simp only [skipWs_start, skipWs_nl, skipWs_end, takeText, parseScalar, expectEndWs,
      expectEnd, except_ok_bind, String.reduceEq, true_or, or_true, false_or, or_false,
      reduceIte]
  | false =>
    show parseValue pfd (f + 1) (.startE "value" :: .charsE "\n" :: .startE "boolean" ::
      .charsE "0" :: .endE "boolean" :: .charsE "\n" :: .endE "value" :: rest) = _
    rw [parseValue]
    simp only [skipWs_start, skipWs_nl, skipWs_end, takeText, parseScalar, expectEndWs,
      expectEnd, except_ok_bind, String.reduceEq, true_or, or_true, false_or, or_false,
      reduceIte]

/-- Parser round trip for a `String` token stream. -/
theorem parseValue_toks_string (ftd : F64 → String) (pfd : String → Option F64) (s : String)
    (f : Nat) (rest : List XmlEvent) :
    parseValue pfd (f + 1) ((Value.chunks ftd (.String s)).map Chunk.toEvent ++ rest)
      = .ok (.String s, rest) := by
  rw [toks_string]
  by_cases h : s.data = []
  · rw [textEvts, if_pos h]
    show parseValue pfd (f + 1) (.startE "value" :: .charsE "\n" :: .startE "string" ::
      .endE "string" :: .charsE "\n" :: .endE "value" :: rest) = _
    rw [parseValue]
    simp only [skipWs_start, skipWs_nl, skipWs_end, takeText, parseScalar, expectEndWs,
      expectEnd, except_ok_bind, String.reduceEq, true_or, or_true, false_or, or_false,
      reduceIte]
    have hs : s = "" := String.ext (by rw [h])
    rw [hs]
  · rw [textEvts, if_neg h]
    show parseValue pfd (f + 1) (.startE "value" :: .charsE "\n" :: .startE "string" ::
      .charsE s :: .endE "string" :: .charsE "\n" :: .endE "value" :: rest) = _
    rw [parseValue]
    simp only [skipWs_start, skipWs_nl, skipWs_end, takeText, parseScalar, expectEndWs,
      expectEnd, except_ok_bind, String.reduceEq, true_or, or_true, false_or, or_false,
      reduceIte]

/-- Parser round trip for a `Double` token stream, under the float
round-trip hypothesis. -/
theorem parseValue_toks_double (ftd : F64 → String) (pfd : String → Option F64) (d : F64)
    (hx : xmlSafe (ftd d) = true) (hp : pfd (ftd d) = some d)
    (f : Nat) (rest : List XmlEvent) :
    parseValue pfd (f + 1) ((Value.chunks ftd (.Double d)).map Chunk.toEvent ++ rest)
      = .ok (.Double d, rest) := by
  rw [toks_double ftd d hx]
  by_cases h : (ftd d).data = []
  · rw [textEvts, if_pos h]
    have hftd : ftd d = "" := String.ext (by rw [h])
    rw [hftd] at hp
    show parseValue pfd (f + 1) (.startE "value" :: .charsE "\n" :: .startE "double" ::
      .endE "double" :: .charsE "\n" :: .endE "value" :: rest) = _
    rw [parseValue]
    simp only [skipWs_start, skipWs_nl, skipWs_end, takeText, parseScalar, expectEndWs,
      expectEnd, except_ok_bind, String.reduceEq, true_or, or_true, false_or, or_false,
      reduceIte, hp]
  · rw [textEvts, if_neg h]
    show parseValue pfd (f + 1) (.startE "value" :: .charsE "\n" :: .startE "double" ::
      .charsE (ftd d) :: .endE "double" :: .charsE "\n" :: .endE "value" :: rest) = _
    rw [parseValue]
    simp only [skipWs_start, skipWs_nl, skipWs_end, takeText, parseScalar, expectEndWs,
      expectEnd, except_ok_bind, String.reduceEq, true_or, or_true, false_or, or_false,
      reduceIte, hp]

/-- Parser round trip for a `DateTime` token stream. -/
theorem parseValue_toks_datetime (ftd : F64 → String) (pfd : String → Option F64)
    (dt : DateTime) (hx : xmlSafe dt.iso = true) (f : Nat) (rest : List XmlEvent) :
    parseValue pfd (f + 1) ((Value.chunks ftd (.DateTime dt)).map Chunk.toEvent ++ rest)
      = .ok (.DateTime dt, rest) := by
  rw [toks_datetime ftd dt hx]
  by_cases h : dt.iso.data = []
  · rw [textEvts, if_pos h]
    show parseValue pfd (f + 1) (.startE "value" :: .charsE "\n" ::
      .startE "dateTime.iso8601" :: .endE "dateTime.iso8601" :: .charsE "\n" ::
      .endE "value" :: rest) = _
    rw [parseValue]
    simp only [skipWs_start, skipWs_nl, skipWs_end, takeText, parseScalar, parse_datetime,
      expectEndWs, expectEnd, except_ok_bind, String.reduceEq, true_or, or_true, false_or,
      or_false, reduceIte]
    have : dt = (⟨""⟩ : DateTime) := by
      cases dt with
      | mk iso => exact congrArg DateTime.mk (String.ext (by rw [h]))
    rw [← this]
  · rw [textEvts, if_neg h]
    show parseValue pfd (f + 1) (.startE "value" :: .charsE "\n" ::
      .startE "dateTime.iso8601" :: .charsE dt.iso :: .endE "dateTime.iso8601" ::
      .charsE "\n" :: .endE "value" :: rest) = _
    rw [parseValue]
    simp only [skipWs_start, skipWs_nl, skipWs_end, takeText, parseScalar, parse_datetime,
      expectEndWs, expectEnd, except_ok_bind, String.reduceEq, true_or, or_true, false_or,
      or_false, reduceIte]

/-- Parser round trip for a `Base64` token stream. -/
theorem parseValue_toks_base64 (ftd : F64 → String) (pfd : String → Option F64)
    (data : List (Fin 256)) (f : Nat) (rest : List XmlEvent) :
    parseValue pfd (f + 1) ((Value.chunks ftd (.Base64 data)).map Chunk.toEvent ++ rest)
      = .ok (.Base64 data, rest) := by
  rw [toks_base64]
  by_cases h : (encode data).data = []
  · have hdata : data = [] := (b64encodeL_eq_nil_iff data).mp h
    subst hdata
    rw [textEvts, if_pos h]
    show parseValue pfd (f + 1) (.startE "value" :: .charsE "\n" :: .startE "base64" ::
      .endE "base64" :: .charsE "\n" :: .endE "value" :: rest) = _
    rw [parseValue]
    simp only [skipWs_start, skipWs_nl, skipWs_end, takeText, parseScalar, expectEndWs,
      expectEnd, except_ok_bind, String.reduceEq, true_or, or_true, false_or, or_false,
      reduceIte]
    rfl
  · rw [textEvts, if_neg h]
    show parseValue pfd (f + 1) (.startE "value" :: .charsE "\n" :: .startE "base64" ::
      .charsE (encode data) :: .endE "base64" :: .charsE "\n" :: .endE "value" :: rest) = _
    rw [parseValue]
    simp only [skipWs_start, skipWs_nl, skipWs_end, takeText, parseScalar, expectEndWs,
      expectEnd, except_ok_bind, String.reduceEq, true_or, or_true, false_or, or_false,
      reduceIte]
    rw [show (encode data).data = b64encodeL data from rfl, b64decode_encode]
    rfl

/-- Every value's token stream begins with `<value>`. -/
theorem chunks_map_head (ftd : F64 → String) (v : Value) :
    ∃ r, (Value.chunks ftd v).map Chunk.toEvent = .startE "value" :: r := by
  cases v <;> exact ⟨_, rfl⟩

/-- The member loop accepts the closing `</struct>` immediately. -/
theorem parseMembers_nil_step (pfd : String → Option F64) (g : Nat)
    (acc : List (String × Value)) (rest : List XmlEvent) :
    parseMembers pfd (g + 1) acc (.endE "struct" :: rest) = .ok (acc, rest) := by
  rw [parseMembers]
  simp only [skipWs_end, String.reduceEq, reduceIte]

/-- The member loop consumes one member block. -/
theorem parseMembers_cons_step (pfd : String → Option F64) (g : Nat)
    (acc : List (String × Value)) (k : String) (v : Value) (res : List (String × Value))
    (VE MR rest' : List XmlEvent)
    (hv : parseValue pfd g (VE ++ .charsE "\n" :: .endE "member" :: .charsE "\n"
        :: (MR ++ .endE "struct" :: rest'))
      = .ok (v, .charsE "\n" :: .endE "member" :: .charsE "\n"
        :: (MR ++ .endE "struct" :: rest')))
    (hrec : parseMembers pfd g (btreeInsert k v acc) (MR ++ .endE "struct" :: rest')
      = .ok (res, rest')) :
    parseMembers pfd (g + 1) acc
      (([.startE "member", .charsE "\n", .startE "name"] ++ textEvts k
        ++ [.endE "name", .charsE "\n"] ++ VE ++ [.charsE "\n", .endE "member", .charsE "\n"]
        ++ MR) ++ .endE "struct" :: rest') = .ok (res, rest') := by
  by_cases h : k.data = []
  · have hk : k = "" := String.ext (by rw [h])
    subst hk
    rw [textEvts, if_pos h]
    simp only [List.append_assoc, List.cons_append, List.nil_append]
    rw [parseMembers]
    simp only [skipWs_start, skipWs_nl, skipWs_end, takeText, expectEndWs, expectEnd,
      except_ok_bind, String.reduceEq, reduceIte, parseValue_nl, parseMembers_nl, hv, hrec]
  · rw [textEvts, if_neg h]
    simp only [List.append_assoc, List.cons_append, List.nil_append]
    rw [parseMembers]
    simp only [skipWs_start, skipWs_nl, skipWs_end, takeText, expectEndWs, expectEnd,
      except_ok_bind, String.reduceEq, reduceIte, parseValue_nl, parseMembers_nl, hv, hrec]

/-- The element loop accepts the closing `</data>` immediately. -/
theorem parseItems_nil_step (pfd : String → Option F64) (g : Nat) (rest : List XmlEvent) :
    parseItems pfd (g + 1) (.endE "data" :: rest) = .ok ([], rest) := by
  rw [parseItems]
  simp only [skipWs_end, String.reduceEq, reduceIte]

/-- The element loop consumes one nested value. -/
theorem parseItems_cons_step (pfd : String → Option F64) (g : Nat) (v : Value)
    (vs : List Value) (VE2 IR rest' : List XmlEvent)
    (hv : parseValue pfd g (.startE "value" :: (VE2 ++ .charsE "\n"
        :: (IR ++ .endE "data" :: rest')))
      = .ok (v, .charsE "\n" :: (IR ++ .endE "data" :: rest')))
    (hrec : parseItems pfd g (IR ++ .endE "data" :: rest') = .ok (vs, rest')) :
    parseItems pfd (g + 1) (((.startE "value" :: VE2) ++ [.charsE "\n"] ++ IR)
      ++ .endE "data" :: rest') = .ok (v :: vs, rest') := by
  simp only [List.append_assoc, List.cons_append, List.nil_append]
  rw [parseItems]
  simp only [skipWs_start]
  rw [hv]
  simp only [except_ok_bind, parseItems_nl, hrec]

/-- The value parser consumes a whole `<struct>` element given its member
loop's behavior. -/
theorem parseValue_struct_step (pfd : String → Option F64) (f : Nat)
    (ME : List XmlEvent) (mm : List (String × Value)) (rest : List XmlEvent)
    (hm : parseMembers pfd f []
        (ME ++ .endE "struct" :: .charsE "\n" :: .endE "value" :: rest)
      = .ok (mm, .charsE "\n" :: .endE "value" :: rest)) :
    parseValue pfd (f + 1)
      (([.startE "value", .charsE "\n", .startE "struct", .charsE "\n"] ++ ME
        ++ [.endE "struct", .charsE "\n", .endE "value"]) ++ rest)
      = .ok (.Struct mm, rest) := by
  simp only [List.append_assoc, List.cons_append, List.nil_append]
  rw [parseValue]
  simp only [skipWs_start, skipWs_nl, skipWs_end, expectEndWs, expectEnd, except_ok_bind,
    String.reduceEq, true_or, or_true, false_or, or_false, reduceIte, parseMembers_nl, hm]

/-- The value parser consumes a whole `<array>` element given its element
loop's behavior. -/
theorem parseValue_array_step (pfd : String → Option F64) (f : Nat)
    (IE : List XmlEvent) (xs : List Value) (rest : List XmlEvent)
    (hi : parseItems pfd f (IE ++ .endE "data" :: .charsE "\n" :: .endE "array"
        :: .charsE "\n" :: .endE "value" :: rest)
      = .ok (xs, .charsE "\n" :: .endE "array" :: .charsE "\n" :: .endE "value" :: rest)) :
    parseValue pfd (f + 1)
      (([.startE "value", .charsE "\n", .startE "array", .charsE "\n", .startE "data",
         .charsE "\n"] ++ IE
        ++ [.endE "data", .charsE "\n", .endE "array", .charsE "\n", .endE "value"]) ++ rest)
      = .ok (.Array xs, rest) := by
  simp only [List.append_assoc, List.cons_append, List.nil_append]
  rw [parseValue]
  simp only [skipWs_start, skipWs_nl, skipWs_end, expectEndWs, expectEnd, except_ok_bind,
    String.reduceEq, true_or, or_true, false_or, or_false, reduceIte, parseItems_nl, hi]

/-- The parser always needs at least one unit of fuel. -/
theorem need_pos (v : Value) : 1 ≤ Value.need v := by
  cases v <;> simp [Value.need]

/-- The member loop always needs at least one unit of fuel. -/
theorem needMembers_pos (m : List (String × Value)) : 1 ≤ needMembers m := by
  cases m with
  | nil => simp [needMembers]
  | cons kv r => obtain ⟨k, v⟩ := kv; simp [needMembers]

/-- The element loop always needs at least one unit of fuel. -/
theorem needItems_pos (xs : List Value) : 1 ≤ needItems xs := by
  cases xs <;> simp [needItems]

/-- The parser reconstructs every serialized value from its token stream,
leaving any suffix intact, given enough fuel and the round-trip
hypotheses. -/
theorem parseValue_chunks (ftd : F64 → String) (pfd : String → Option F64) (v : Value)
    (hsafe : Value.rtSafe ftd pfd v = true) :
    ∀ fuel, Value.need v ≤ fuel → ∀ rest,
      parseValue pfd fuel ((Value.chunks ftd v).map Chunk.toEvent ++ rest)
        = .ok (v, rest) := by
  induction v using Value.inductionOn with
  | hInt i =>
    intro fuel hfuel rest
    obtain ⟨f, rfl⟩ : ∃ f, fuel = f + 1 :=
      ⟨fuel - 1, by have := need_pos (.Int i); omega⟩
    exact parseValue_toks_int ftd pfd i f rest
  | hBool b =>
    intro fuel hfuel rest
    obtain ⟨f, rfl⟩ : ∃ f, fuel = f + 1 :=
      ⟨fuel - 1, by have := need_pos (.Bool b); omega⟩
    exact parseValue_toks_bool ftd pfd b f rest
  | hString s =>
    intro fuel hfuel rest
    obtain ⟨f, rfl⟩ : ∃ f, fuel = f + 1 :=
      ⟨fuel - 1, by have := need_pos (.String s); omega⟩
    exact parseValue_toks_string ftd pfd s f rest
  | hDouble d =>
    rw [Value.rtSafe, Bool.and_eq_true, Bool.and_eq_true] at hsafe
    intro fuel hfuel rest
    obtain ⟨f, rfl⟩ : ∃ f, fuel = f + 1 :=
      ⟨fuel - 1, by have := need_pos (.Double d); omega⟩
    exact parseValue_toks_double ftd pfd d hsafe.1.2 (beq_iff_eq.mp hsafe.2) f rest
  | hDT dt =>
    rw [Value.rtSafe] at hsafe
    intro fuel hfuel rest
    obtain ⟨f, rfl⟩ : ∃ f, fuel = f + 1 :=
      ⟨fuel - 1, by have := need_pos (.DateTime dt); omega⟩
    exact parseValue_toks_datetime ftd pfd dt hsafe f rest
  | hB64 data =>
    intro fuel hfuel rest
    obtain ⟨f, rfl⟩ : ∃ f, fuel = f + 1 :=
      ⟨fuel - 1, by have := need_pos (.Base64 data); omega⟩
    exact parseValue_toks_base64 ftd pfd data f rest
  | hStruct m ih =>
    rw [Value.rtSafe, Bool.and_eq_true] at hsafe
    intro fuel hfuel rest
    have hneed : Value.need (.Struct m) = 1 + needMembers m := rfl
    obtain ⟨f, rfl⟩ : ∃ f, fuel = f + 1 :=
      ⟨fuel - 1, by have := need_pos (.Struct m); omega⟩
    have hf : needMembers m ≤ f := by rw [hneed] at hfuel; omega
    have hm : ∀ (m' : List (String × Value)), rtSafeMembers ftd pfd m' = true →
        (∀ kv ∈ m', kv.2.rtSafe ftd pfd = true → ∀ fuel, Value.need kv.2 ≤ fuel →
          ∀ rest, parseValue pfd fuel ((Value.chunks ftd kv.2).map Chunk.toEvent ++ rest)
            = .ok (kv.2, rest)) →
        ∀ g, needMembers m' ≤ g → ∀ (acc : List (String × Value)) (rest' : List XmlEvent),
          parseMembers pfd g acc ((chunksMembers ftd m').map Chunk.toEvent
            ++ .endE "struct" :: rest')
          = .ok (m'.foldl (fun mm kv => btreeInsert kv.1 kv.2 mm) acc, rest') := by
      intro m'
      induction m' with
      | nil =>
        intro _ _ g hg acc rest'
        obtain ⟨g', rfl⟩ : ∃ g', g = g' + 1 := ⟨g - 1, by have := needMembers_pos []; omega⟩
        exact parseMembers_nil_step pfd g' acc rest'
      | cons kv r ihr =>
        intro hsafe' hall g hg acc rest'
        obtain ⟨k, v'⟩ := kv
        rw [rtSafeMembers, Bool.and_eq_true] at hsafe'
        have hneed' : needMembers ((k, v') :: r) = 1 + max (Value.need v') (needMembers r) :=
          rfl
        obtain ⟨g', rfl⟩ : ∃ g', g = g' + 1 :=
          ⟨g - 1, by have := needMembers_pos ((k, v') :: r); omega⟩
        have hg1 : Value.need v' ≤ g' := by
          rw [hneed'] at hg
          have := le_max_left (Value.need v') (needMembers r)
          omega
        have hg2 : needMembers r ≤ g' := by
          rw [hneed'] at hg
          have := le_max_right (Value.need v') (needMembers r)
          omega
        rw [toks_member]
        have hv := hall (k, v') (List.mem_cons_self _ _) hsafe'.1 g' hg1
          (.charsE "\n" :: .endE "member" :: .charsE "\n"
            :: ((chunksMembers ftd r).map Chunk.toEvent ++ .endE "struct" :: rest'))
        have hrec := ihr hsafe'.2 (fun kv hkv => hall kv (List.mem_cons_of_mem _ hkv))
          g' hg2 (btreeInsert k v' acc) rest'
        have hstep := parseMembers_cons_step pfd g' acc k v' _ _ _ rest' hv hrec
        rw [hstep, List.foldl_cons]
    have hmm := hm m hsafe.2 ih f hf [] (.charsE "\n" :: .endE "value" :: rest)
    rw [toks_struct, parseValue_struct_step pfd f _ _ rest hmm,
      foldl_insert_sorted (keysSorted_of_sortedKeysB hsafe.1)]
  | hArray xs ih =>
    rw [Value.rtSafe] at hsafe
    intro fuel hfuel rest
    have hneed : Value.need (.Array xs) = 1 + needItems xs := rfl
    obtain ⟨f, rfl⟩ : ∃ f, fuel = f + 1 :=
      ⟨fuel - 1, by have := need_pos (.Array xs); omega⟩
    have hf : needItems xs ≤ f := by rw [hneed] at hfuel; omega
    have hi : ∀ (xs' : List Value), rtSafeItems ftd pfd xs' = true →
        (∀ x ∈ xs', x.rtSafe ftd pfd = true → ∀ fuel, Value.need x ≤ fuel →
          ∀ rest, parseValue pfd fuel ((Value.chunks ftd x).map Chunk.toEvent ++ rest)
            = .ok (x, rest)) →
        ∀ g, needItems xs' ≤ g → ∀ rest' : List XmlEvent,
          parseItems pfd g ((chunksItems ftd xs').map Chunk.toEvent
            ++ .endE "data" :: rest')
          = .ok (xs', rest') := by
      intro xs'
      induction xs' with
      | nil =>
        intro _ _ g hg rest'
        obtain ⟨g', rfl⟩ : ∃ g', g = g' + 1 := ⟨g - 1, by have := needItems_pos []; omega⟩
        exact parseItems_nil_step pfd g' rest'
      | cons x r ihr =>
        intro hsafe' hall g hg rest'
        rw [rtSafeItems, Bool.and_eq_true] at hsafe'
        have hneed' : needItems (x :: r) = 1 + max (Value.need x) (needItems r) := rfl
        obtain ⟨g', rfl⟩ : ∃ g', g = g' + 1 :=
          ⟨g - 1, by have := needItems_pos (x :: r); omega⟩
        have hg1 : Value.need x ≤ g' := by
          rw [hneed'] at hg
          have := le_max_left (Value.need x) (needItems r)
          omega
        have hg2 : needItems r ≤ g' := by
          rw [hneed'] at hg
          have := le_max_right (Value.need x) (needItems r)
          omega
        rw [toks_item]
        obtain ⟨VE2, hVE⟩ := chunks_map_head ftd x
        have hv := hall x (List.mem_cons_self _ _) hsafe'.1 g' hg1
          (.charsE "\n" :: ((chunksItems ftd r).map Chunk.toEvent ++ .endE "data" :: rest'))
        rw [hVE, List.cons_append] at hv
        have hrec := ihr hsafe'.2 (fun y hy => hall y (List.mem_cons_of_mem _ hy))
          g' hg2 rest'
        rw [hVE]
        exact parseItems_cons_step pfd g' x r VE2
          ((chunksItems ftd r).map Chunk.toEvent) rest' hv hrec
    have hii := hi xs hsafe ih f hf
      (.charsE "\n" :: .endE "array" :: .charsE "\n" :: .endE "value" :: rest)
    rw [toks_array, parseValue_array_step pfd f _ _ rest hii]

/-- Tokenizing the serializer's output yields one event per chunk plus the
final newline. -/
theorem tokenize_format (ftd : F64 → String) (pfd : String → Option F64) (v : Value)
    (h : Value.rtSafe ftd pfd v = true) :
    tokenizeL (Value.format ftd v).data
      = (Value.chunks ftd v).map Chunk.toEvent ++ [.charsE "\n"] := by
  have hflat : flatChunks (Value.chunks ftd v) ++ ['\n']
      = flatChunks (Value.chunks ftd v ++ [nlC]) := by
    rw [flatChunks_append]
    rfl
  have hwf := chunks_wf ftd pfd v h
  have hWF : chunksWF (Value.chunks ftd v ++ [nlC]) :=
    chunksWF_mk
      (ok_append hwf.1 (by intro c hc; rw [List.mem_singleton] at hc; subst hc; exact ⟨by decide, by decide⟩))
      (noAdjText_append hwf.2 (by decide) (Or.inl (chunks_lastNotText ftd v)))
  show tokGo (.text []) (Value.format ftd v).data = _
  rw [format_data_chunks, hflat, tokGo_chunks _ hWF, List.map_append]
  rfl

/-- C5: parsing the serializer's output reconstructs the value exactly,
for every constructible value that carries no NaN double and whose
external text conversions (float-to-text and back, datetime text)
round-trip — the spec's "no NaN / no measurement-lossy floats" proviso,
expressed by `rtSafe`. -/
theorem C5_parse_format_roundtrip (ftd : F64 → String) (pfd : String → Option F64)
    (v : Value) (h : Value.rtSafe ftd pfd v = true) :
    parse pfd (Value.format ftd v) = .ok v := by
  rw [parse, tokenize_format ftd pfd v h]
  have hfuel : Value.need v
      ≤ ((Value.chunks ftd v).map Chunk.toEvent ++ [XmlEvent.charsE "\n"]).length + 1 := by
    rw [List.length_append, List.length_map]
    have := need_le_chunks ftd v
    simp only [List.length_singleton]
    omega
  rw [parseValue_chunks ftd pfd v h _ hfuel [.charsE "\n"], except_ok_bind]
  rfl

/-- Witness for C5 at a concrete nested value exercising every variant. -/
theorem C5_parse_format_roundtrip_witness :
    Value.rtSafe (fun _ => "0") (fun s => if s = "0" then some (F64.finite 0) else none)
      (.Struct [("a", .Array [.Int (-3), .Bool true, .String "x<&y",
        .Base64 [⟨77, by omega⟩]]), ("b", .Double (.finite 0)),
        ("c", .DateTime ⟨"20051130T10:20:36"⟩)]) = true
    ∧ parse (fun s => if s = "0" then some (F64.finite 0) else none)
        (Value.format (fun _ => "0")
          (.Struct [("a", .Array [.Int (-3), .Bool true, .String "x<&y",
            .Base64 [⟨77, by omega⟩]]), ("b", .Double (.finite 0)),
            ("c", .DateTime ⟨"20051130T10:20:36"⟩)]))
      = .ok (.Struct [("a", .Array [.Int (-3), .Bool true, .String "x<&y",
          .Base64 [⟨77, by omega⟩]]), ("b", .Double (.finite 0)),
          ("c", .DateTime ⟨"20051130T10:20:36"⟩)]) :=
  ⟨by decide, C5_parse_format_roundtrip _ _ _ (by decide)⟩
